import Mathlib

/-
Verification of the RustyCalculator history-tree calculator
(src/src/calc.rs, src/src/general_operations.rs, src/src/logic_operations.rs).

The Rust code stores the history tree with `Rc<RefCell<Node>>` pointers and
`Weak` parent back-references.  The embedding makes the heap explicit: an
arena `nodes : List (Node F)` in which a node identity (the Rust `Rc`
pointer, compared with `Rc::ptr_eq`) is the index at which the node was
allocated.  Fresh allocations append at the end, so identities are never
reused — matching the fact that a live `Rc` is never pointer-equal to a
newly allocated one.  Nodes that Rust would drop simply become unreachable
garbage at the end of the arena; all statements about the history tree are
made relative to the nodes reachable from `root`.  A `Weak::upgrade` is
modelled as an arena lookup: it succeeds exactly when the index is in
range (in well-formed states a stored parent index always is, as its Rust
counterpart is kept alive by the tree).

IEEE f64 scalars are not shallowly embeddable, so the scalar type and the
primitive operations the code applies to it (`+`, `*`, `powf`, `sqrt`,
`ln`, `is_finite`, `abs() > 0.0`, `log10().floor() as i32`,
`abs() > f64::MAX / 2.0`, comparisons with `0.0`) are abstracted into a
`FloatModel` parameter.  Every control-flow decision of the source is
translated exactly, with the float primitives left as parameters of the
model; the executable instantiation `intModel` (scalars = `Int`) is used
to evaluate concrete runs.
-/

set_option maxHeartbeats 1000000

namespace RustyCalc

/-- Error type of the calculator, from `CalculationError` in src/src/calc.rs.
The payloads of the three parse errors are modelled as strings. -/
inductive CalculationError where
  | DivisionByZero
  | ParseError (msg : String)
  | PrecisionLoss
  | CannotDeleteRoot
  | InvalidChildIndex
  | CannotGoBackwards
  | OutofBounds
  | ParseFloatError (msg : String)
  | ParseIntError (msg : String)
  deriving DecidableEq

/-- Abstraction of the IEEE f64 scalars of the source: the carrier type
together with the pure float primitives the calculator applies.
`fMagDigits` models `val.abs().log10().floor() as i32`, `fAbsGtZero`
models `val.abs() > 0.0`, `fAbsGtHalfMax` models
`val.abs() > f64::MAX / 2.0`, `fIsZeroEq` models `divisor == 0.0`,
`fLtZero` models `prev < 0.0` and `fLeZero` models `prev <= 0.0`. -/
structure FloatModel where
  F : Type
  deq : DecidableEq F
  fzero : F
  fadd : F → F → F
  fsub : F → F → F
  fmul : F → F → F
  fdiv : F → F → F
  fpowf : F → F → F
  fsqrt : F → F
  fln : F → F
  fIsFinite : F → Bool
  fAbsGtZero : F → Bool
  fMagDigits : F → Int
  fAbsGtHalfMax : F → Bool
  fIsZeroEq : F → Bool
  fLtZero : F → Bool
  fLeZero : F → Bool

instance (fm : FloatModel) : DecidableEq fm.F := fm.deq

/-- A node identity: the arena index at which the node was allocated.
Plays the role of the `Rc<RefCell<Node>>` pointer of the source;
`Rc::ptr_eq` is equality of indices. -/
abbrev NodeId := Nat

/-- History-tree node, from `struct Node` in src/src/calc.rs: a value, an
optional weak parent back-reference, and the owned list of children. -/
structure Node (F : Type) where
  value : F
  parent : Option NodeId
  child_item : List NodeId
  deriving DecidableEq

/-- Calculator state, from `struct RustyCalculator` in src/src/calc.rs,
plus the explicit arena `nodes` replacing the Rust heap.  `cache` is the
snapshot stack; Rust `Vec::push`/`Vec::pop` (LIFO) is modelled by
cons/head on a list. -/
structure RustyCalculator (F : Type) where
  nodes : List (Node F)
  root : NodeId
  current : NodeId
  cache : List NodeId
  deriving DecidableEq

/-- Replace the element at index `i` by its image under `f` (no-op when
`i` is out of range).  Models an in-place `RefCell` mutation of the node
allocated at index `i`. -/
def updateAt {α : Type _} : List α → Nat → (α → α) → List α
  | [], _, _ => []
  | a :: as, 0, f => f a :: as
  | a :: as, i + 1, f => a :: updateAt as i f

/-- Default node used to totalise arena lookups that cannot fail in Rust
(a `borrow()` through a live `Rc`). -/
def defaultNode (fm : FloatModel) : Node fm.F := ⟨fm.fzero, none, []⟩

/-- Dereference a node identity, as Rust `node.borrow()`.  In states the
program can construct the index is always in range; out-of-range lookups
return the default node. -/
def nodeAt (fm : FloatModel) (c : RustyCalculator fm.F) (i : NodeId) : Node fm.F :=
  (c.nodes[i]?).getD (defaultNode fm)

/-- Constructor `RustyCalculator::new(rest_state)` (src/src/calc.rs:41-44). -/
def new (fm : FloatModel) (rest_state : fm.F) : RustyCalculator fm.F :=
  { nodes := [⟨rest_state, none, []⟩], root := 0, current := 0, cache := [] }

/-- Method `snapshot` (src/src/calc.rs:50-52): pushes (a clone of) `self.root`
onto the cache stack. -/
def snapshot (fm : FloatModel) (c : RustyCalculator fm.F) : RustyCalculator fm.F :=
  { c with cache := c.root :: c.cache }

/-- Method `clear_cache` (src/src/calc.rs:54-57), printing omitted. -/
def clear_cache (fm : FloatModel) (c : RustyCalculator fm.F) : RustyCalculator fm.F :=
  { c with cache := [] }

/-- Ancestor walk of `recover_cache` (src/src/calc.rs:62-74): follow parent
links while they exist and upgrade, returning the last node reached.  The
Rust `loop` is given fuel; in the states the program constructs the chain
is finite and `c.nodes.length` fuel is always enough (cached nodes are
former roots, whose parent is `None`, so the loop in fact stops at once). -/
def topAncestor (fm : FloatModel) (nodes : List (Node fm.F)) : Nat → NodeId → NodeId
  | 0, i => i
  | fuel + 1, i =>
    match (nodes[i]?).getD (defaultNode fm) |>.parent with
    | none => i
    | some pid =>
      match nodes[pid]? with
      | some _ => topAncestor fm nodes fuel pid
      | none => i

/-- Method `recover_cache` (src/src/calc.rs:59-81): pop the snapshot stack;
on `Some`, set `current` to the popped node and `root` to its topmost
ancestor; on `None`, fail with `CannotDeleteRoot`.  Printing omitted. -/
def recover_cache (fm : FloatModel) (c : RustyCalculator fm.F) :
    Option CalculationError × RustyCalculator fm.F :=
  match c.cache with
  | [] => (some CalculationError.CannotDeleteRoot, c)
  | cached :: rest =>
    let newRoot := topAncestor fm c.nodes c.nodes.length cached
    (none, { c with current := cached, root := newRoot, cache := rest })

/-- Validator `checked_value` (src/src/calc.rs:242-265).  The `digits`
local is `val.abs().log10().floor() as i32` when `val.abs() > 0.0` and `0`
otherwise, exactly as in the source. -/
def checked_value (fm : FloatModel) (_prev val : fm.F) : Except CalculationError fm.F :=
  if !(fm.fIsFinite val) then
    Except.error CalculationError.OutofBounds
  else
    let digits : Int := if fm.fAbsGtZero val then fm.fMagDigits val else 0
    if digits > 15 then
      Except.error CalculationError.PrecisionLoss
    else if fm.fAbsGtHalfMax val then
      Except.error CalculationError.PrecisionLoss
    else
      Except.ok val

/-- Mutation applied to the parent node when a child with identity `nid` is
pushed onto its child list (`self.current.borrow_mut().child_item.push(..)`). -/
def growChild {F : Type} (nid : NodeId) (n : Node F) : Node F :=
  { n with child_item := n.child_item ++ [nid] }

/-- Mutation writing a value into a node (`borrow_mut().value = valid`). -/
def setValue {F : Type} (v : F) (n : Node F) : Node F :=
  { n with value := v }

/-- Mutation removing every child pointer-equal to `cur` from a node's child
list (`retain(|child| !Rc::ptr_eq(child, &current_node))`). -/
def pruneChild {F : Type} (cur : NodeId) (n : Node F) : Node F :=
  { n with child_item := n.child_item.filter (fun j => j != cur) }

/-- Shared node-insertion block of every operation (e.g. src/src/calc.rs:273-279
in `add`): allocate a node holding `v` with parent `current` and no children,
push its identity onto `current`'s child list, and advance `current` to it. -/
def insertNode {F : Type} (c : RustyCalculator F) (v : F) : RustyCalculator F :=
  { c with
    nodes := updateAt c.nodes c.current (growChild c.nodes.length) ++ [⟨v, some c.current, []⟩],
    current := c.nodes.length }

/-- Method `delete` (src/src/calc.rs:492-507): if `current`'s parent exists
and upgrades, retain in the parent's child list only the children not
pointer-equal to `current` and move `current` to the parent; otherwise fail
with `CannotDeleteRoot`. -/
def delete (fm : FloatModel) (c : RustyCalculator fm.F) :
    Option CalculationError × RustyCalculator fm.F :=
  match (nodeAt fm c c.current).parent with
  | some pid =>
    match c.nodes[pid]? with
    | some _ =>
      (none, { c with nodes := updateAt c.nodes pid (pruneChild c.current), current := pid })
    | none => (some CalculationError.CannotDeleteRoot, c)
  | none => (some CalculationError.CannotDeleteRoot, c)

/-- Shared insert-validate-rollback block of the eight arithmetic operations
(e.g. src/src/calc.rs:273-290 in `add`): insert the candidate node, then run
`checked_value`; on `Ok(valid)` store `valid` back into the (new) current
node and succeed; on `Err(e)` call `delete` (discarding its result, as the
source does with `let _ =`) and return `e`. -/
def insertValidated (fm : FloatModel) (c : RustyCalculator fm.F) (prev candidate : fm.F) :
    Option CalculationError × RustyCalculator fm.F :=
  let c1 := insertNode c candidate
  match checked_value fm prev candidate with
  | Except.ok valid =>
    (none, { c1 with nodes := updateAt c1.nodes c1.current (setValue valid) })
  | Except.error e => (some e, (delete fm c1).2)

/-- Method `add` (src/src/calc.rs:269-291). -/
def add (fm : FloatModel) (c : RustyCalculator fm.F) (new_value : fm.F) :
    Option CalculationError × RustyCalculator fm.F :=
  let prev := (nodeAt fm c c.current).value
  let candidate := fm.fadd prev new_value
  insertValidated fm c prev candidate

/-- Method `multiply` (src/src/calc.rs:293-315). -/
def multiply (fm : FloatModel) (c : RustyCalculator fm.F) (new_value : fm.F) :
    Option CalculationError × RustyCalculator fm.F :=
  let prev := (nodeAt fm c c.current).value
  let candidate := fm.fmul prev new_value
  insertValidated fm c prev candidate

/-- Method `divide` (src/src/calc.rs:317-343): fails with `DivisionByZero`
before touching the tree when `divisor == 0.0`. -/
def divide (fm : FloatModel) (c : RustyCalculator fm.F) (divisor : fm.F) :
    Option CalculationError × RustyCalculator fm.F :=
  if fm.fIsZeroEq divisor then
    (some CalculationError.DivisionByZero, c)
  else
    let previous_value := (nodeAt fm c c.current).value
    let candidate := fm.fdiv previous_value divisor
    insertValidated fm c previous_value candidate

/-- Method `subtract` (src/src/calc.rs:345-367). -/
def subtract (fm : FloatModel) (c : RustyCalculator fm.F) (new_value : fm.F) :
    Option CalculationError × RustyCalculator fm.F :=
  let prev := (nodeAt fm c c.current).value
  let candidate := fm.fsub prev new_value
  insertValidated fm c prev candidate

/-- Method `exp` (src/src/calc.rs:369-391): `prev.powf(new_value)`. -/
def exp (fm : FloatModel) (c : RustyCalculator fm.F) (new_value : fm.F) :
    Option CalculationError × RustyCalculator fm.F :=
  let prev := (nodeAt fm c c.current).value
  let candidate := fm.fpowf prev new_value
  insertValidated fm c prev candidate

/-- Method `square_root` (src/src/calc.rs:393-420): fails with `OutofBounds`
before touching the tree when `prev < 0.0`. -/
def square_root (fm : FloatModel) (c : RustyCalculator fm.F) :
    Option CalculationError × RustyCalculator fm.F :=
  let prev := (nodeAt fm c c.current).value
  if fm.fLtZero prev then
    (some CalculationError.OutofBounds, c)
  else
    let candidate := fm.fsqrt prev
    insertValidated fm c prev candidate

/-- Method `square` (src/src/calc.rs:422-444): `prev * prev`. -/
def square (fm : FloatModel) (c : RustyCalculator fm.F) :
    Option CalculationError × RustyCalculator fm.F :=
  let prev := (nodeAt fm c c.current).value
  let candidate := fm.fmul prev prev
  insertValidated fm c prev candidate

/-- Method `natural_log` (src/src/calc.rs:446-473): fails with `OutofBounds`
before touching the tree when `prev <= 0.0`. -/
def natural_log (fm : FloatModel) (c : RustyCalculator fm.F) :
    Option CalculationError × RustyCalculator fm.F :=
  let prev := (nodeAt fm c c.current).value
  if fm.fLeZero prev then
    (some CalculationError.OutofBounds, c)
  else
    let candidate := fm.fln prev
    insertValidated fm c prev candidate

/-- Method `input` (src/src/calc.rs:477-486): unconditionally insert a node
holding `new_value`, bypassing validation. -/
def input {F : Type} (c : RustyCalculator F) (new_value : F) : RustyCalculator F :=
  insertNode c new_value

/-- Method `go_forwards` (src/src/calc.rs:509-537).  The source reads the
child selection from stdin; the embedding takes it as the parameter
`choice`, with `none` standing for a line that fails to parse as `usize`
(which the source maps to `InvalidChildIndex`).  With no children it fails
with `CannotGoBackwards` (sic, the reused error kind of the source). -/
def go_forwards (fm : FloatModel) (c : RustyCalculator fm.F) (choice : Option Nat) :
    Option CalculationError × RustyCalculator fm.F :=
  let children := (nodeAt fm c c.current).child_item
  if children.isEmpty then
    (some CalculationError.CannotGoBackwards, c)
  else
    match choice with
    | none => (some CalculationError.InvalidChildIndex, c)
    | some ch =>
      if ch ≥ children.length then
        (some CalculationError.InvalidChildIndex, c)
      else
        (none, { c with current := children.getD ch 0 })

/-- Method `go_backwards` (src/src/calc.rs:539-551): move `current` to its
parent if the parent link exists and upgrades, else fail with
`CannotGoBackwards`. -/
def go_backwards (fm : FloatModel) (c : RustyCalculator fm.F) :
    Option CalculationError × RustyCalculator fm.F :=
  match (nodeAt fm c c.current).parent with
  | some pid =>
    match c.nodes[pid]? with
    | some _ => (none, { c with current := pid })
    | none => (some CalculationError.CannotGoBackwards, c)
  | none => (some CalculationError.CannotGoBackwards, c)

/-- Method `result` (src/src/calc.rs:553-555): the current node's value. -/
def result (fm : FloatModel) (c : RustyCalculator fm.F) : fm.F :=
  (nodeAt fm c c.current).value

/-- Method `reset` (src/src/calc.rs:557-572): snapshot, then allocate a
fresh zero-valued root and point `root` and `current` at it.  Printing
omitted. -/
def reset (fm : FloatModel) (c : RustyCalculator fm.F) : RustyCalculator fm.F :=
  let c1 := snapshot fm c
  let nid := c1.nodes.length
  { c1 with
    nodes := c1.nodes ++ [⟨fm.fzero, none, []⟩],
    root := nid,
    current := nid }

/-- Fuel-based base-10 logarithm on `Nat` (structurally recursive, so that
concrete runs reduce inside the kernel). -/
def log10fuel : Nat → Nat → Nat
  | 0, _ => 0
  | fuel + 1, n => if n < 10 then 0 else 1 + log10fuel fuel (n / 10)

/-- Executable instantiation of the float model with carrier `Int`, used to
evaluate the embedding on concrete runs.  "Finite" means magnitude below
1000 and the half-max threshold is 500; the transcendental primitives are
arbitrary total functions, as no concrete run below exercises their values. -/
def intModel : FloatModel where
  F := Int
  deq := inferInstance
  fzero := 0
  fadd := fun a b => a + b
  fsub := fun a b => a - b
  fmul := fun a b => a * b
  fdiv := fun a b => a / b
  fpowf := fun a b => a * b
  fsqrt := fun a => (a.toNat.sqrt : Int)
  fln := fun _ => 0
  fIsFinite := fun v => decide (v.natAbs < 1000)
  fAbsGtZero := fun v => decide (v ≠ 0)
  fMagDigits := fun v => (log10fuel v.natAbs v.natAbs : Int)
  fAbsGtHalfMax := fun v => decide (500 < v.natAbs)
  fIsZeroEq := fun v => decide (v = 0)
  fLtZero := fun v => decide (v < 0)
  fLeZero := fun v => decide (v ≤ 0)

instance {n : Nat} : OfNat intModel.F n := inferInstanceAs (OfNat Int n)

instance : Neg intModel.F := inferInstanceAs (Neg Int)

example : result intModel (add intModel (new intModel 0) 5).2 = 5 := by decide

example :
    result intModel (multiply intModel (add intModel (new intModel 0) 5).2 3).2 = 15 := by
  decide

example :
    (divide intModel (multiply intModel (add intModel (new intModel 0) 5).2 3).2 0).1 =
      some CalculationError.DivisionByZero := by
  decide

example :
    (square intModel (input (new intModel 0) 600)).1 =
      some CalculationError.OutofBounds := by
  decide

example :
    result intModel (square intModel (input (new intModel 0) 600)).2 = 600 := by
  decide

/-! Basic facts about `updateAt`. -/

theorem length_updateAt {α : Type _} (l : List α) (i : Nat) (f : α → α) :
    (updateAt l i f).length = l.length := by
  induction l generalizing i with
  | nil => rfl
  | cons a as ih =>
    cases i with
    | zero => rfl
    | succ n => simpa [updateAt] using ih n

theorem getElem?_updateAt_ne {α : Type _} (l : List α) {i j : Nat} (f : α → α) (h : i ≠ j) :
    (updateAt l i f)[j]? = l[j]? := by
  induction l generalizing i j with
  | nil => rfl
  | cons a as ih =>
    cases i with
    | zero =>
      cases j with
      | zero => exact absurd rfl h
      | succ m => simp [updateAt]
    | succ n =>
      cases j with
      | zero => simp [updateAt]
      | succ m =>
        simp only [updateAt, List.getElem?_cons_succ]
        exact ih (fun hh => h (by omega))

theorem getElem?_updateAt_self {α : Type _} (l : List α) (i : Nat) (f : α → α) :
    (updateAt l i f)[i]? = (l[i]?).map f := by
  induction l generalizing i with
  | nil => rfl
  | cons a as ih =>
    cases i with
    | zero => simp [updateAt]
    | succ n => simpa [updateAt] using ih n

theorem updateAt_append_left {α : Type _} (l t : List α) {i : Nat} (f : α → α)
    (h : i < l.length) :
    updateAt (l ++ t) i f = updateAt l i f ++ t := by
  induction l generalizing i with
  | nil => exact absurd h (by simp)
  | cons a as ih =>
    cases i with
    | zero => rfl
    | succ n =>
      simp only [List.cons_append, updateAt, List.cons.injEq, true_and]
      exact ih (by simpa using h)

theorem updateAt_updateAt {α : Type _} (l : List α) (i : Nat) (f g : α → α) :
    updateAt (updateAt l i f) i g = updateAt l i (fun a => g (f a)) := by
  induction l generalizing i with
  | nil => rfl
  | cons a as ih =>
    cases i with
    | zero => rfl
    | succ n => simpa [updateAt] using ih n

theorem updateAt_eq_self {α : Type _} (l : List α) {i : Nat} {f : α → α} (a : α)
    (h : l[i]? = some a) (hf : f a = a) : updateAt l i f = l := by
  induction l generalizing i with
  | nil => simp at h
  | cons b bs ih =>
    cases i with
    | zero =>
      simp only [List.getElem?_cons_zero, Option.some.injEq] at h
      subst h
      simp [updateAt, hf]
    | succ n =>
      simp only [List.getElem?_cons_succ] at h
      simp [updateAt, ih h]

theorem updateAt_concat_self {α : Type _} (l : List α) (a : α) (f : α → α) :
    updateAt (l ++ [a]) l.length f = l ++ [f a] := by
  induction l with
  | nil => rfl
  | cons b bs ih => simpa [updateAt] using ih

/-! Well-formedness and the structural invariants of the history tree. -/

/-- All node references stored inside the arena are in range. -/
def WFnodes {F : Type} (nodes : List (Node F)) : Prop :=
  ∀ (i : NodeId) (n : Node F), nodes[i]? = some n →
    (∀ j ∈ n.child_item, j < nodes.length) ∧ (∀ p, n.parent = some p → p < nodes.length)

/-- Well-formed calculator state: `root`, `current`, every cached identity
and every stored link are in range.  Every state the program can construct
is well-formed. -/
def WF {F : Type} (c : RustyCalculator F) : Prop :=
  c.root < c.nodes.length ∧ c.current < c.nodes.length ∧
    (∀ i ∈ c.cache, i < c.nodes.length) ∧ WFnodes c.nodes

/-- Reachability along child links, from `i` down to `j`. -/
inductive Reach {F : Type} (nodes : List (Node F)) : NodeId → NodeId → Prop where
  | refl (i : NodeId) : Reach nodes i i
  | step {i j k : NodeId} {n : Node F} :
      Reach nodes i j → nodes[j]? = some n → k ∈ n.child_item → Reach nodes i k

/-- Every child's weak parent back-reference upgrades to exactly the node
whose child list contains it. -/
def ParentBack {F : Type} (nodes : List (Node F)) : Prop :=
  ∀ (i : NodeId) (n : Node F) (j : NodeId), nodes[i]? = some n → j ∈ n.child_item →
    ∃ m : Node F, nodes[j]? = some m ∧ m.parent = some i

/-- Children were always allocated after their parent, so every child link
goes to a strictly larger identity.  This makes the tree acyclic. -/
def ChildGt {F : Type} (nodes : List (Node F)) : Prop :=
  ∀ (i : NodeId) (n : Node F) (j : NodeId), nodes[i]? = some n → j ∈ n.child_item → i < j

/-- The root node has no parent. -/
def RootNoParent {F : Type} (c : RustyCalculator F) : Prop :=
  ∀ n : Node F, c.nodes[c.root]? = some n → n.parent = none

/-- Every cached snapshot is a former root, hence has no parent. -/
def CacheNoParent {F : Type} (c : RustyCalculator F) : Prop :=
  ∀ i ∈ c.cache, ∀ n : Node F, c.nodes[i]? = some n → n.parent = none

/-- The invariant claimed in the specification: `current` is reachable from
`root` along child links, and parent back-references match the child lists. -/
def ClaimInv {F : Type} (c : RustyCalculator F) : Prop :=
  Reach c.nodes c.root c.current ∧ ParentBack c.nodes

/-- Full inductive invariant of reachable program states. -/
def WFI {F : Type} (c : RustyCalculator F) : Prop :=
  WF c ∧ ChildGt c.nodes ∧ Reach c.nodes c.root c.current ∧ ParentBack c.nodes ∧
    RootNoParent c ∧ CacheNoParent c

theorem WFI.claimInv {F : Type} {c : RustyCalculator F} (h : WFI c) : ClaimInv c :=
  ⟨h.2.2.1, h.2.2.2.1⟩

/-! Lookup characterisation of `insertNode`. -/

theorem insertNode_nodes {F : Type} (c : RustyCalculator F) (v : F) :
    (insertNode c v).nodes =
      updateAt c.nodes c.current (growChild c.nodes.length) ++ [⟨v, some c.current, []⟩] :=
  rfl

theorem insertNode_current {F : Type} (c : RustyCalculator F) (v : F) :
    (insertNode c v).current = c.nodes.length := rfl

theorem insertNode_root {F : Type} (c : RustyCalculator F) (v : F) :
    (insertNode c v).root = c.root := rfl

theorem insertNode_cache {F : Type} (c : RustyCalculator F) (v : F) :
    (insertNode c v).cache = c.cache := rfl

theorem insertNode_length {F : Type} (c : RustyCalculator F) (v : F) :
    (insertNode c v).nodes.length = c.nodes.length + 1 := by
  simp [insertNode_nodes, length_updateAt]

theorem insertNode_getElem?_ne {F : Type} (c : RustyCalculator F) (v : F) {i : NodeId}
    (hi : i < c.nodes.length) (hne : i ≠ c.current) :
    (insertNode c v).nodes[i]? = c.nodes[i]? := by
  rw [insertNode_nodes,
    List.getElem?_append_left (by rw [length_updateAt]; exact hi),
    getElem?_updateAt_ne _ _ (fun h => hne h.symm)]

theorem insertNode_getElem?_cur {F : Type} (c : RustyCalculator F) (v : F)
    (hcur : c.current < c.nodes.length) :
    (insertNode c v).nodes[c.current]? =
      (c.nodes[c.current]?).map (growChild c.nodes.length) := by
  rw [insertNode_nodes,
    List.getElem?_append_left (by rw [length_updateAt]; exact hcur),
    getElem?_updateAt_self]

theorem insertNode_getElem?_last {F : Type} (c : RustyCalculator F) (v : F) :
    (insertNode c v).nodes[c.nodes.length]? = some ⟨v, some c.current, []⟩ := by
  rw [insertNode_nodes]
  have h := List.getElem?_concat_length
    (updateAt c.nodes c.current (growChild c.nodes.length)) (⟨v, some c.current, []⟩ : Node F)
  rwa [length_updateAt] at h

/-- A lookup at an old index in the grown arena: the old node, with the
fresh identity appended to its children exactly when the index is the old
`current`. -/
theorem insertNode_getElem?_old {F : Type} (c : RustyCalculator F) (v : F) {i : NodeId} {n : Node F}
    (h : c.nodes[i]? = some n) :
    (insertNode c v).nodes[i]? =
      some (if i = c.current then growChild c.nodes.length n else n) := by
  have hi : i < c.nodes.length := (List.getElem?_eq_some_iff.mp h).1
  by_cases hic : i = c.current
  · subst hic
    rw [insertNode_getElem?_cur c v hi, h]
    simp
  · rw [insertNode_getElem?_ne c v hi hic, h, if_neg hic]

/-! Outcome analysis of `checked_value` and `insertValidated`. -/

/-- Branch-level description of `checked_value`, with the `digits` local
inlined. -/
theorem checked_value_def (fm : FloatModel) (p v : fm.F) :
    checked_value fm p v =
      if !(fm.fIsFinite v) then Except.error CalculationError.OutofBounds
      else if (if fm.fAbsGtZero v then fm.fMagDigits v else 0) > 15 then
        Except.error CalculationError.PrecisionLoss
      else if fm.fAbsGtHalfMax v then Except.error CalculationError.PrecisionLoss
      else Except.ok v := rfl

theorem checked_value_ok_val {fm : FloatModel} {p v w : fm.F}
    (h : checked_value fm p v = Except.ok w) : w = v := by
  rw [checked_value_def] at h
  repeat' split at h
  all_goals first
  | exact (Except.ok.inj h).symm
  | simp at h

/-- Successful validation: `insertValidated` succeeds and the final state is
exactly the inserted-node state (the write-back of `valid` rewrites the
candidate value that is already there). -/
theorem insertValidated_ok {fm : FloatModel} {c : RustyCalculator fm.F} {prev cand w : fm.F}
    (h : checked_value fm prev cand = Except.ok w) :
    insertValidated fm c prev cand = (none, insertNode c cand) := by
  have hw : w = cand := checked_value_ok_val h
  unfold insertValidated
  rw [h]
  have hnodes : updateAt (insertNode c cand).nodes (insertNode c cand).current (setValue w) =
      (insertNode c cand).nodes := by
    apply updateAt_eq_self _ (⟨cand, some c.current, []⟩ : Node fm.F)
    · rw [insertNode_current]
      exact insertNode_getElem?_last c cand
    · rw [hw]
      rfl
  dsimp only
  rw [hnodes]

/-- Failed validation: `insertValidated` returns the validation error and
the rollback restores everything except that the detached node stays in the
arena as unreachable garbage (its Rust counterpart is dropped). -/
theorem insertValidated_err {fm : FloatModel} {c : RustyCalculator fm.F} {prev cand : fm.F}
    {e : CalculationError}
    (hcur : c.current < c.nodes.length) (hwf : WFnodes c.nodes)
    (h : checked_value fm prev cand = Except.error e) :
    insertValidated fm c prev cand =
      (some e, { c with nodes := c.nodes ++ [⟨cand, some c.current, []⟩] }) := by
  have hncur : c.nodes[c.current]? = some c.nodes[c.current] :=
    List.getElem?_eq_getElem hcur
  have hdel : delete fm (insertNode c cand) =
      (none, { c with nodes := c.nodes ++ [⟨cand, some c.current, []⟩] }) := by
    unfold delete
    have hnodeAt : nodeAt fm (insertNode c cand) (insertNode c cand).current =
        (⟨cand, some c.current, []⟩ : Node fm.F) := by
      rw [nodeAt, insertNode_current, insertNode_getElem?_last c cand]
      rfl
    rw [hnodeAt]
    have hpar : (insertNode c cand).nodes[c.current]? =
        some (growChild c.nodes.length c.nodes[c.current]) := by
      rw [insertNode_getElem?_cur c cand hcur, hncur]
      rfl
    simp only [hpar]
    have hkey : updateAt (insertNode c cand).nodes c.current
        (pruneChild (insertNode c cand).current) =
        c.nodes ++ [⟨cand, some c.current, []⟩] := by
      rw [insertNode_current, insertNode_nodes,
        updateAt_append_left _ _ _ (by rw [length_updateAt]; exact hcur),
        updateAt_updateAt]
      congr 1
      apply updateAt_eq_self _ _ hncur
      have hch : ∀ j ∈ c.nodes[c.current].child_item, j < c.nodes.length :=
        (hwf c.current c.nodes[c.current] hncur).1
      have hfil : (c.nodes[c.current].child_item ++ [c.nodes.length]).filter
          (fun j => j != c.nodes.length) = c.nodes[c.current].child_item := by
        rw [List.filter_append]
        have h1 : c.nodes[c.current].child_item.filter (fun j => j != c.nodes.length) =
            c.nodes[c.current].child_item := by
          rw [List.filter_eq_self]
          intro a ha
          have := hch a ha
          simp [Nat.ne_of_lt this]
        have h2 : ([c.nodes.length] : List NodeId).filter (fun j => j != c.nodes.length) =
            ([] : List NodeId) := by simp
        rw [h1, h2, List.append_nil]
      show pruneChild c.nodes.length (growChild c.nodes.length c.nodes[c.current]) =
        c.nodes[c.current]
      unfold pruneChild growChild
      dsimp only
      rw [hfil]
    rw [hkey]
    rfl
  unfold insertValidated
  rw [h]
  dsimp only
  rw [hdel]

/-! Reachability under arena extension. -/

theorem Reach.append {F : Type} {nodes t : List (Node F)} {r j : NodeId}
    (h : Reach nodes r j) : Reach (nodes ++ t) r j := by
  induction h with
  | refl => exact Reach.refl _
  | step h1 h2 h3 ih =>
    refine Reach.step ih ?_ h3
    rw [List.getElem?_append_left (List.getElem?_eq_some_iff.mp h2).1]
    exact h2

theorem Reach.of_append {F : Type} {nodes t : List (Node F)} {r j : NodeId}
    (hwf : WFnodes nodes) (hr : r < nodes.length)
    (h : Reach (nodes ++ t) r j) : Reach nodes r j ∧ j < nodes.length := by
  induction h with
  | refl => exact ⟨Reach.refl _, hr⟩
  | @step j k n h1 h2 h3 ih =>
    obtain ⟨hreach, hlt⟩ := ih
    have h2a : nodes[j]? = some n := by
      rw [← @List.getElem?_append_left _ nodes t j hlt]
      exact h2
    refine ⟨Reach.step hreach h2a h3, ?_⟩
    exact (hwf j n h2a).1 k h3

/-! Branch-level descriptions of the fallible navigation operations. -/

theorem delete_none {fm : FloatModel} {c : RustyCalculator fm.F}
    (hp : (nodeAt fm c c.current).parent = none) :
    delete fm c = (some CalculationError.CannotDeleteRoot, c) := by
  unfold delete
  rw [hp]

theorem delete_dangling {fm : FloatModel} {c : RustyCalculator fm.F} {pid : NodeId}
    (hp : (nodeAt fm c c.current).parent = some pid) (hl : c.nodes[pid]? = none) :
    delete fm c = (some CalculationError.CannotDeleteRoot, c) := by
  unfold delete
  rw [hp]
  dsimp only
  rw [hl]

theorem delete_ok {fm : FloatModel} {c : RustyCalculator fm.F} {pid : NodeId} {np : Node fm.F}
    (hp : (nodeAt fm c c.current).parent = some pid) (hl : c.nodes[pid]? = some np) :
    delete fm c =
      (none, { c with nodes := updateAt c.nodes pid (pruneChild c.current), current := pid }) := by
  unfold delete
  rw [hp]
  dsimp only
  rw [hl]

theorem go_backwards_none {fm : FloatModel} {c : RustyCalculator fm.F}
    (hp : (nodeAt fm c c.current).parent = none) :
    go_backwards fm c = (some CalculationError.CannotGoBackwards, c) := by
  unfold go_backwards
  rw [hp]

theorem go_backwards_dangling {fm : FloatModel} {c : RustyCalculator fm.F} {pid : NodeId}
    (hp : (nodeAt fm c c.current).parent = some pid) (hl : c.nodes[pid]? = none) :
    go_backwards fm c = (some CalculationError.CannotGoBackwards, c) := by
  unfold go_backwards
  rw [hp]
  dsimp only
  rw [hl]

theorem go_backwards_ok {fm : FloatModel} {c : RustyCalculator fm.F} {pid : NodeId}
    {np : Node fm.F}
    (hp : (nodeAt fm c c.current).parent = some pid) (hl : c.nodes[pid]? = some np) :
    go_backwards fm c = (none, { c with current := pid }) := by
  unfold go_backwards
  rw [hp]
  dsimp only
  rw [hl]

theorem go_forwards_empty {fm : FloatModel} {c : RustyCalculator fm.F}
    (h : (nodeAt fm c c.current).child_item = []) (choice : Option Nat) :
    go_forwards fm c choice = (some CalculationError.CannotGoBackwards, c) := by
  unfold go_forwards
  rw [if_pos (by simp [h])]

theorem go_forwards_parse_fail {fm : FloatModel} {c : RustyCalculator fm.F}
    (h : (nodeAt fm c c.current).child_item ≠ []) :
    go_forwards fm c none = (some CalculationError.InvalidChildIndex, c) := by
  unfold go_forwards
  rw [if_neg (by simp [h])]

theorem go_forwards_oob {fm : FloatModel} {c : RustyCalculator fm.F} {ch : Nat}
    (h : (nodeAt fm c c.current).child_item ≠ [])
    (hch : ch ≥ (nodeAt fm c c.current).child_item.length) :
    go_forwards fm c (some ch) = (some CalculationError.InvalidChildIndex, c) := by
  unfold go_forwards
  rw [if_neg (by simp [h])]
  dsimp only
  rw [if_pos hch]

theorem go_forwards_ok {fm : FloatModel} {c : RustyCalculator fm.F} {ch : Nat}
    (hch : ch < (nodeAt fm c c.current).child_item.length) :
    go_forwards fm c (some ch) =
      (none, { c with current := (nodeAt fm c c.current).child_item.getD ch 0 }) := by
  have h : (nodeAt fm c c.current).child_item ≠ [] := by
    intro he
    rw [he] at hch
    exact absurd hch (by simp)
  unfold go_forwards
  rw [if_neg (by simp [h])]
  dsimp only
  rw [if_neg (by omega)]

theorem recover_cache_nil {fm : FloatModel} {c : RustyCalculator fm.F}
    (h : c.cache = []) :
    recover_cache fm c = (some CalculationError.CannotDeleteRoot, c) := by
  unfold recover_cache
  rw [h]

theorem recover_cache_cons {fm : FloatModel} {c : RustyCalculator fm.F} {cached : NodeId}
    {rest : List NodeId} (h : c.cache = cached :: rest) :
    recover_cache fm c =
      (none,
        { c with
          current := cached,
          root := topAncestor fm c.nodes c.nodes.length cached,
          cache := rest }) := by
  unfold recover_cache
  rw [h]

/-- A cached node with no parent is its own topmost ancestor: the ancestor
walk stops immediately. -/
theorem topAncestor_no_parent {fm : FloatModel} {nodes : List (Node fm.F)} {i : NodeId}
    {n : Node fm.F} (hl : nodes[i]? = some n) (hp : n.parent = none) :
    ∀ fuel, topAncestor fm nodes fuel i = i := by
  intro fuel
  cases fuel with
  | zero => rfl
  | succ m =>
    unfold topAncestor
    rw [hl]
    simp [hp]

/-! The frame condition satisfied by failed operations (claim C1): the
identity of `current`, the root, the snapshot stack, every pre-existing
node (value, parent link and child list) and the set of identities
reachable from the root are all exactly as before the call. -/

def ErrFrame {F : Type} (c c2 : RustyCalculator F) : Prop :=
  c2.root = c.root ∧ c2.current = c.current ∧ c2.cache = c.cache ∧
    (∀ i, i < c.nodes.length → c2.nodes[i]? = c.nodes[i]?) ∧
    (∀ j, Reach c2.nodes c2.root j ↔ Reach c.nodes c.root j)

theorem errFrame_refl {F : Type} (c : RustyCalculator F) : ErrFrame c c :=
  ⟨rfl, rfl, rfl, fun _ _ => rfl, fun _ => Iff.rfl⟩

theorem errFrame_append {F : Type} {c : RustyCalculator F} (hwf : WF c) (x : Node F) :
    ErrFrame c { c with nodes := c.nodes ++ [x] } := by
  refine ⟨rfl, rfl, rfl, fun i hi => List.getElem?_append_left hi, fun j => ?_⟩
  constructor
  · intro h
    exact ((Reach.of_append hwf.2.2.2 hwf.1) h).1
  · intro h
    exact h.append

/-- Any error result of the shared insert-validate-rollback block leaves the
frame intact. -/
theorem insertValidated_err_frame {fm : FloatModel} {c : RustyCalculator fm.F}
    {prev cand : fm.F} (hwf : WF c) :
    ∀ e, (insertValidated fm c prev cand).1 = some e →
      ErrFrame c (insertValidated fm c prev cand).2 := by
  intro e h
  cases hv : checked_value fm prev cand with
  | ok w =>
    rw [insertValidated_ok hv] at h
    exact absurd h (by simp)
  | error e2 =>
    rw [insertValidated_err hwf.2.1 hwf.2.2.2 hv] at h ⊢
    exact errFrame_append hwf _

/-- A freshly constructed calculator is well-formed. -/
theorem WF_new (fm : FloatModel) (v : fm.F) : WF (new fm v) := by
  refine ⟨by simp [new], by simp [new], by simp [new], ?_⟩
  intro i n h
  cases i with
  | zero =>
    simp only [new, List.getElem?_cons_zero, Option.some.injEq] at h
    subst h
    simp
  | succ m => simp [new] at h

/-- C1: for every well-formed calculator state, any arithmetic operation
call that returns an error (a domain error or a validation failure), and
any failing `delete`, leaves the identity of the current node, the root,
the snapshot stack, every pre-existing node of the tree (values and
parent/child links) and the set of identities reachable from the root
exactly as they were immediately before the call. -/
theorem c1_failed_ops_preserve_state (fm : FloatModel) (c : RustyCalculator fm.F)
    (hwf : WF c) :
    (∀ v e, (add fm c v).1 = some e → ErrFrame c (add fm c v).2) ∧
    (∀ v e, (subtract fm c v).1 = some e → ErrFrame c (subtract fm c v).2) ∧
    (∀ v e, (multiply fm c v).1 = some e → ErrFrame c (multiply fm c v).2) ∧
    (∀ v e, (divide fm c v).1 = some e → ErrFrame c (divide fm c v).2) ∧
    (∀ v e, (exp fm c v).1 = some e → ErrFrame c (exp fm c v).2) ∧
    (∀ e, (square fm c).1 = some e → ErrFrame c (square fm c).2) ∧
    (∀ e, (square_root fm c).1 = some e → ErrFrame c (square_root fm c).2) ∧
    (∀ e, (natural_log fm c).1 = some e → ErrFrame c (natural_log fm c).2) ∧
    (∀ e, (delete fm c).1 = some e → ErrFrame c (delete fm c).2) := by
  refine ⟨?_, ?_, ?_, ?_, ?_, ?_, ?_, ?_, ?_⟩
  · intro v e h
    exact insertValidated_err_frame hwf e h
  · intro v e h
    exact insertValidated_err_frame hwf e h
  · intro v e h
    exact insertValidated_err_frame hwf e h
  · intro v e h
    by_cases hd : fm.fIsZeroEq v = true
    · have hdiv : divide fm c v = (some CalculationError.DivisionByZero, c) := by
        unfold divide
        rw [if_pos hd]
      rw [hdiv]
      exact errFrame_refl c
    · have hdiv : divide fm c v =
          insertValidated fm c ((nodeAt fm c c.current).value)
            (fm.fdiv ((nodeAt fm c c.current).value) v) := by
        unfold divide
        rw [if_neg hd]
      rw [hdiv] at h ⊢
      exact insertValidated_err_frame hwf e h
  · intro v e h
    exact insertValidated_err_frame hwf e h
  · intro e h
    exact insertValidated_err_frame hwf e h
  · intro e h
    by_cases hlt : fm.fLtZero ((nodeAt fm c c.current).value) = true
    · have hsr : square_root fm c = (some CalculationError.OutofBounds, c) := by
        unfold square_root
        rw [if_pos hlt]
      rw [hsr]
      exact errFrame_refl c
    · have hsr : square_root fm c =
          insertValidated fm c ((nodeAt fm c c.current).value)
            (fm.fsqrt ((nodeAt fm c c.current).value)) := by
        unfold square_root
        rw [if_neg hlt]
      rw [hsr] at h ⊢
      exact insertValidated_err_frame hwf e h
  · intro e h
    by_cases hle : fm.fLeZero ((nodeAt fm c c.current).value) = true
    · have hnl : natural_log fm c = (some CalculationError.OutofBounds, c) := by
        unfold natural_log
        rw [if_pos hle]
      rw [hnl]
      exact errFrame_refl c
    · have hnl : natural_log fm c =
          insertValidated fm c ((nodeAt fm c c.current).value)
            (fm.fln ((nodeAt fm c c.current).value)) := by
        unfold natural_log
        rw [if_neg hle]
      rw [hnl] at h ⊢
      exact insertValidated_err_frame hwf e h
  · intro e h
    cases hp : (nodeAt fm c c.current).parent with
    | none =>
      rw [delete_none hp]
      exact errFrame_refl c
    | some pid =>
      cases hl : c.nodes[pid]? with
      | none =>
        rw [delete_dangling hp hl]
        exact errFrame_refl c
      | some np =>
        rw [delete_ok hp hl] at h
        exact absurd h (by simp)

theorem c1_failed_ops_preserve_state_witness :
    WF (new intModel 0) ∧
      (divide intModel (new intModel 0) 0).1 = some CalculationError.DivisionByZero ∧
      ErrFrame (new intModel 0) (divide intModel (new intModel 0) 0).2 :=
  ⟨WF_new intModel 0, by decide,
    (c1_failed_ops_preserve_state intModel (new intModel 0) (WF_new intModel 0)).2.2.2.1 0
      CalculationError.DivisionByZero (by decide)⟩

/-- C5: `divide` with a divisor equal to 0.0 fails with `DivisionByZero`,
`square_root` on a negative current value fails with `OutofBounds`, and
`natural_log` on a non-positive current value fails with `OutofBounds`;
in all three cases the error is returned before any node is inserted and
the returned state is literally the unchanged input state. -/
theorem c5_domain_errors (fm : FloatModel) (c : RustyCalculator fm.F) :
    (∀ d, fm.fIsZeroEq d = true →
      divide fm c d = (some CalculationError.DivisionByZero, c)) ∧
    (fm.fLtZero (result fm c) = true →
      square_root fm c = (some CalculationError.OutofBounds, c)) ∧
    (fm.fLeZero (result fm c) = true →
      natural_log fm c = (some CalculationError.OutofBounds, c)) := by
  refine ⟨?_, ?_, ?_⟩
  · intro d hd
    unfold divide
    rw [if_pos hd]
  · intro hlt
    unfold result at hlt
    unfold square_root
    rw [if_pos hlt]
  · intro hle
    unfold result at hle
    unfold natural_log
    rw [if_pos hle]

theorem c5_domain_errors_witness :
    intModel.fIsZeroEq 0 = true ∧
    divide intModel (new intModel 0) 0 = (some CalculationError.DivisionByZero, new intModel 0) ∧
    square_root intModel (input (new intModel 0) (-1)) =
      (some CalculationError.OutofBounds, input (new intModel 0) (-1)) ∧
    natural_log intModel (new intModel 0) =
      (some CalculationError.OutofBounds, new intModel 0) :=
  ⟨by decide,
   (c5_domain_errors intModel (new intModel 0)).1 0 (by decide),
   (c5_domain_errors intModel (input (new intModel 0) (-1))).2.1 (by decide),
   (c5_domain_errors intModel (new intModel 0)).2.2 (by decide)⟩

/-- C6: `recover_cache` on a non-empty snapshot stack pops exactly one
snapshot and replaces the live state wholesale: `current` becomes the
popped node, `root` becomes its topmost ancestor (the popped node itself
whenever it has no parent, which holds for every snapshot the program
pushes), the stack loses exactly its top element, and nothing else
changes.  On an empty stack it fails with `CannotDeleteRoot` and returns
the state unchanged. -/
theorem c6_recover_cache (fm : FloatModel) (c : RustyCalculator fm.F) :
    (∀ cached rest, c.cache = cached :: rest →
      recover_cache fm c =
        (none,
          { c with
            current := cached,
            root := topAncestor fm c.nodes c.nodes.length cached,
            cache := rest })) ∧
    (∀ cached rest (n : Node fm.F), c.cache = cached :: rest →
      c.nodes[cached]? = some n → n.parent = none →
      (recover_cache fm c).2.root = cached ∧ (recover_cache fm c).2.current = cached) ∧
    (c.cache = [] → recover_cache fm c = (some CalculationError.CannotDeleteRoot, c)) := by
  refine ⟨?_, ?_, ?_⟩
  · intro cached rest h
    exact recover_cache_cons h
  · intro cached rest n h hl hp
    rw [recover_cache_cons h]
    dsimp only
    rw [topAncestor_no_parent hl hp]
    exact ⟨rfl, rfl⟩
  · intro h
    exact recover_cache_nil h

theorem c6_recover_cache_witness :
    ((new intModel 0).cache = [] ∧
      recover_cache intModel (new intModel 0) =
        (some CalculationError.CannotDeleteRoot, new intModel 0)) ∧
    ((reset intModel (new intModel 0)).cache = 0 :: [] ∧
      (recover_cache intModel (reset intModel (new intModel 0))).2.root = 0 ∧
      (recover_cache intModel (reset intModel (new intModel 0))).2.current = 0) :=
  ⟨⟨rfl, (c6_recover_cache intModel (new intModel 0)).2.2 rfl⟩,
   ⟨rfl,
    (c6_recover_cache intModel (reset intModel (new intModel 0))).2.1 0 []
      ⟨(0 : Int), none, []⟩ rfl (by decide) rfl⟩⟩

/-- C7: navigation never creates or destroys tree nodes and never alters
any node's value (the whole arena, the root and the snapshot stack are
untouched); a failed `go_forwards` or `go_backwards` returns the state
unchanged, and repeating the failed attempt produces the identical error
and the identical (unchanged) state. -/
theorem c7_navigation_frame (fm : FloatModel) (c : RustyCalculator fm.F) :
    (∀ choice, (go_forwards fm c choice).2.nodes = c.nodes ∧
      (go_forwards fm c choice).2.root = c.root ∧
      (go_forwards fm c choice).2.cache = c.cache) ∧
    ((go_backwards fm c).2.nodes = c.nodes ∧ (go_backwards fm c).2.root = c.root ∧
      (go_backwards fm c).2.cache = c.cache) ∧
    (∀ choice e, (go_forwards fm c choice).1 = some e →
      (go_forwards fm c choice).2 = c ∧
      go_forwards fm (go_forwards fm c choice).2 choice = go_forwards fm c choice) ∧
    (∀ e, (go_backwards fm c).1 = some e →
      (go_backwards fm c).2 = c ∧
      go_backwards fm (go_backwards fm c).2 = go_backwards fm c) := by
  have hforw : ∀ choice, (go_forwards fm c choice).2 = c ∨ (go_forwards fm c choice).1 = none := by
    intro choice
    by_cases hemp : (nodeAt fm c c.current).child_item = []
    · rw [go_forwards_empty hemp choice]
      exact Or.inl rfl
    · cases choice with
      | none =>
        rw [go_forwards_parse_fail hemp]
        exact Or.inl rfl
      | some ch =>
        by_cases hch : ch < (nodeAt fm c c.current).child_item.length
        · rw [go_forwards_ok hch]
          exact Or.inr rfl
        · rw [go_forwards_oob hemp (by omega)]
          exact Or.inl rfl
  have hbackw : (go_backwards fm c).2 = c ∨ (go_backwards fm c).1 = none := by
    cases hp : (nodeAt fm c c.current).parent with
    | none =>
      rw [go_backwards_none hp]
      exact Or.inl rfl
    | some pid =>
      cases hl : c.nodes[pid]? with
      | none =>
        rw [go_backwards_dangling hp hl]
        exact Or.inl rfl
      | some np =>
        rw [go_backwards_ok hp hl]
        exact Or.inr rfl
  refine ⟨?_, ?_, ?_, ?_⟩
  · intro choice
    by_cases hemp : (nodeAt fm c c.current).child_item = []
    · rw [go_forwards_empty hemp choice]
      exact ⟨rfl, rfl, rfl⟩
    · cases choice with
      | none =>
        rw [go_forwards_parse_fail hemp]
        exact ⟨rfl, rfl, rfl⟩
      | some ch =>
        by_cases hch : ch < (nodeAt fm c c.current).child_item.length
        · rw [go_forwards_ok hch]
          exact ⟨rfl, rfl, rfl⟩
        · rw [go_forwards_oob hemp (by omega)]
          exact ⟨rfl, rfl, rfl⟩
  · cases hp : (nodeAt fm c c.current).parent with
    | none =>
      rw [go_backwards_none hp]
      exact ⟨rfl, rfl, rfl⟩
    | some pid =>
      cases hl : c.nodes[pid]? with
      | none =>
        rw [go_backwards_dangling hp hl]
        exact ⟨rfl, rfl, rfl⟩
      | some np =>
        rw [go_backwards_ok hp hl]
        exact ⟨rfl, rfl, rfl⟩
  · intro choice e h
    cases hforw choice with
    | inl heq =>
      refine ⟨heq, ?_⟩
      rw [heq]
    | inr hnone => rw [hnone] at h; exact absurd h (by simp)
  · intro e h
    cases hbackw with
    | inl heq =>
      refine ⟨heq, ?_⟩
      rw [heq]
    | inr hnone => rw [hnone] at h; exact absurd h (by simp)

theorem c7_navigation_frame_witness :
    (go_backwards intModel (new intModel 0)).1 = some CalculationError.CannotGoBackwards ∧
    (go_backwards intModel (new intModel 0)).2 = new intModel 0 ∧
    go_backwards intModel (go_backwards intModel (new intModel 0)).2 =
      go_backwards intModel (new intModel 0) :=
  ⟨by decide,
   ((c7_navigation_frame intModel (new intModel 0)).2.2.2
      CalculationError.CannotGoBackwards (by decide)).1,
   ((c7_navigation_frame intModel (new intModel 0)).2.2.2
      CalculationError.CannotGoBackwards (by decide)).2⟩

/-! Success-path descriptions of the arithmetic operations. -/

theorem insertValidated_none {fm : FloatModel} {c : RustyCalculator fm.F} {prev cand : fm.F}
    (h : (insertValidated fm c prev cand).1 = none) :
    insertValidated fm c prev cand = (none, insertNode c cand) := by
  cases hv : checked_value fm prev cand with
  | ok w => exact insertValidated_ok hv
  | error e =>
    have herr : (insertValidated fm c prev cand).1 = some e := by
      unfold insertValidated
      rw [hv]
    rw [herr] at h
    exact absurd h (by simp)

theorem nodeAt_insertNode_current (fm : FloatModel) (c : RustyCalculator fm.F) (v : fm.F) :
    nodeAt fm (insertNode c v) (insertNode c v).current = ⟨v, some c.current, []⟩ := by
  rw [nodeAt, insertNode_current, insertNode_getElem?_last]
  rfl

theorem result_insertNode (fm : FloatModel) (c : RustyCalculator fm.F) (v : fm.F) :
    result fm (insertNode c v) = v := by
  unfold result
  rw [nodeAt_insertNode_current]

theorem add_none_eq {fm : FloatModel} {c : RustyCalculator fm.F} {v : fm.F}
    (h : (add fm c v).1 = none) :
    add fm c v = (none, insertNode c (fm.fadd (result fm c) v)) :=
  insertValidated_none h

theorem subtract_none_eq {fm : FloatModel} {c : RustyCalculator fm.F} {v : fm.F}
    (h : (subtract fm c v).1 = none) :
    subtract fm c v = (none, insertNode c (fm.fsub (result fm c) v)) :=
  insertValidated_none h

theorem multiply_none_eq {fm : FloatModel} {c : RustyCalculator fm.F} {v : fm.F}
    (h : (multiply fm c v).1 = none) :
    multiply fm c v = (none, insertNode c (fm.fmul (result fm c) v)) :=
  insertValidated_none h

theorem exp_none_eq {fm : FloatModel} {c : RustyCalculator fm.F} {v : fm.F}
    (h : (exp fm c v).1 = none) :
    exp fm c v = (none, insertNode c (fm.fpowf (result fm c) v)) :=
  insertValidated_none h

theorem square_none_eq {fm : FloatModel} {c : RustyCalculator fm.F}
    (h : (square fm c).1 = none) :
    square fm c = (none, insertNode c (fm.fmul (result fm c) (result fm c))) :=
  insertValidated_none h

theorem divide_none_eq {fm : FloatModel} {c : RustyCalculator fm.F} {v : fm.F}
    (h : (divide fm c v).1 = none) :
    divide fm c v = (none, insertNode c (fm.fdiv (result fm c) v)) := by
  by_cases hd : fm.fIsZeroEq v = true
  · have hz : divide fm c v = (some CalculationError.DivisionByZero, c) := by
      unfold divide
      rw [if_pos hd]
    rw [hz] at h
    exact absurd h (by simp)
  · have hdiv : divide fm c v =
        insertValidated fm c ((nodeAt fm c c.current).value)
          (fm.fdiv ((nodeAt fm c c.current).value) v) := by
      unfold divide
      rw [if_neg hd]
    rw [hdiv] at h ⊢
    exact insertValidated_none h

theorem square_root_none_eq {fm : FloatModel} {c : RustyCalculator fm.F}
    (h : (square_root fm c).1 = none) :
    square_root fm c = (none, insertNode c (fm.fsqrt (result fm c))) := by
  by_cases hlt : fm.fLtZero ((nodeAt fm c c.current).value) = true
  · have hz : square_root fm c = (some CalculationError.OutofBounds, c) := by
      unfold square_root
      rw [if_pos hlt]
    rw [hz] at h
    exact absurd h (by simp)
  · have hsr : square_root fm c =
        insertValidated fm c ((nodeAt fm c c.current).value)
          (fm.fsqrt ((nodeAt fm c c.current).value)) := by
      unfold square_root
      rw [if_neg hlt]
    rw [hsr] at h ⊢
    exact insertValidated_none h

theorem natural_log_none_eq {fm : FloatModel} {c : RustyCalculator fm.F}
    (h : (natural_log fm c).1 = none) :
    natural_log fm c = (none, insertNode c (fm.fln (result fm c))) := by
  by_cases hle : fm.fLeZero ((nodeAt fm c c.current).value) = true
  · have hz : natural_log fm c = (some CalculationError.OutofBounds, c) := by
      unfold natural_log
      rw [if_pos hle]
    rw [hz] at h
    exact absurd h (by simp)
  · have hnl : natural_log fm c =
        insertValidated fm c ((nodeAt fm c c.current).value)
          (fm.fln ((nodeAt fm c c.current).value)) := by
      unfold natural_log
      rw [if_neg hle]
    rw [hnl] at h ⊢
    exact insertValidated_none h

/-- C2 (code bug): `reset()` snapshots only `self.root` — contrary to its
own comment "Save the ENTIRE current tree state to cache, not just root /
This now saves current position and tree" — so `recover_cache()` restores
`current` to the pre-reset ROOT, not to the pre-reset current node.
Concrete run: from a fresh calculator at 0, `add 5` makes `result()` = 5;
after `reset()` then `recover_cache()` (which succeeds), `result()` is 0,
the old root's value, not 5. -/
theorem c2_reset_recover_loses_current :
    result intModel (add intModel (new intModel 0) 5).2 = 5 ∧
    (recover_cache intModel (reset intModel (add intModel (new intModel 0) 5).2)).1 = none ∧
    result intModel
      (recover_cache intModel (reset intModel (add intModel (new intModel 0) 5).2)).2 = 0 := by
  decide

/-- C4: the validator fails with `OutofBounds` whenever the candidate is
not finite; otherwise it fails with `PrecisionLoss` whenever the computed
base-10 order of magnitude of the candidate's absolute value (0 for a zero
candidate) exceeds 15 or the absolute value exceeds `f64::MAX / 2`; and
otherwise returns the candidate unchanged.  It is a pure function of its
arguments (the embedding is a function), with no effect on any state. -/
theorem c4_checked_value (fm : FloatModel) (p v : fm.F) :
    (fm.fIsFinite v = false →
      checked_value fm p v = Except.error CalculationError.OutofBounds) ∧
    (fm.fIsFinite v = true →
      ((if fm.fAbsGtZero v then fm.fMagDigits v else 0) > 15 ∨ fm.fAbsGtHalfMax v = true) →
      checked_value fm p v = Except.error CalculationError.PrecisionLoss) ∧
    (fm.fIsFinite v = true → (if fm.fAbsGtZero v then fm.fMagDigits v else 0) ≤ 15 →
      fm.fAbsGtHalfMax v = false →
      checked_value fm p v = Except.ok v) := by
  rw [checked_value_def]
  refine ⟨?_, ?_, ?_⟩
  · intro h
    rw [if_pos (by simp [h])]
  · intro hfin hor
    rw [if_neg (by simp [hfin])]
    cases hor with
    | inl h15 => rw [if_pos h15]
    | inr hmax =>
      by_cases h15 : (if fm.fAbsGtZero v then fm.fMagDigits v else 0) > 15
      · rw [if_pos h15]
      · rw [if_neg h15, if_pos hmax]
  · intro hfin h15 hmax
    rw [if_neg (by simp [hfin]), if_neg (by omega), if_neg (by simp [hmax])]

theorem c4_checked_value_witness :
    (intModel.fIsFinite 2000 = false ∧
      checked_value intModel 0 2000 = Except.error CalculationError.OutofBounds) ∧
    (intModel.fIsFinite 600 = true ∧ intModel.fAbsGtHalfMax 600 = true ∧
      checked_value intModel 0 600 = Except.error CalculationError.PrecisionLoss) ∧
    (intModel.fIsFinite 5 = true ∧ checked_value intModel 0 5 = Except.ok 5) :=
  ⟨⟨by decide, (c4_checked_value intModel 0 2000).1 (by decide)⟩,
   ⟨by decide, by decide,
    (c4_checked_value intModel 0 600).2.1 (by decide) (Or.inr (by decide))⟩,
   ⟨by decide, (c4_checked_value intModel 0 5).2.2 (by decide) (by decide) (by decide)⟩⟩

/-- C9 counterexample: the claim is false on this code.  The `Node` struct
(src/src/calc.rs:28-32) has no operation-label field at all — only
`value`, `parent` and `child_item` — so the node inserted by a successful
`add(5)` cannot carry a "+" tag: the entire post-state of `add(5)` from a
fresh calculator at 0 is identical to the post-state of `input(5)`, which
by the claim would have to carry no label. -/
theorem c9_no_operation_label_counterexample :
    (add intModel (new intModel 0) 5).2 = input (new intModel 0) 5 := by
  decide

/-- C9 amended: nodes carry no operation label (the `Node` type has no such
field).  Every successful arithmetic operation inserts a node consisting of
exactly the candidate value, a parent link to the previous current node and
an empty child list, and `input` inserts exactly the same node shape for
its value — the two are indistinguishable. -/
theorem c9_inserted_node_has_no_label (fm : FloatModel) (c : RustyCalculator fm.F) :
    (∀ v, (add fm c v).1 = none →
      nodeAt fm (add fm c v).2 (add fm c v).2.current =
        ⟨fm.fadd (result fm c) v, some c.current, []⟩) ∧
    (∀ v, (subtract fm c v).1 = none →
      nodeAt fm (subtract fm c v).2 (subtract fm c v).2.current =
        ⟨fm.fsub (result fm c) v, some c.current, []⟩) ∧
    (∀ v, (multiply fm c v).1 = none →
      nodeAt fm (multiply fm c v).2 (multiply fm c v).2.current =
        ⟨fm.fmul (result fm c) v, some c.current, []⟩) ∧
    (∀ v, (divide fm c v).1 = none →
      nodeAt fm (divide fm c v).2 (divide fm c v).2.current =
        ⟨fm.fdiv (result fm c) v, some c.current, []⟩) ∧
    (∀ v, (exp fm c v).1 = none →
      nodeAt fm (exp fm c v).2 (exp fm c v).2.current =
        ⟨fm.fpowf (result fm c) v, some c.current, []⟩) ∧
    ((square fm c).1 = none →
      nodeAt fm (square fm c).2 (square fm c).2.current =
        ⟨fm.fmul (result fm c) (result fm c), some c.current, []⟩) ∧
    ((square_root fm c).1 = none →
      nodeAt fm (square_root fm c).2 (square_root fm c).2.current =
        ⟨fm.fsqrt (result fm c), some c.current, []⟩) ∧
    ((natural_log fm c).1 = none →
      nodeAt fm (natural_log fm c).2 (natural_log fm c).2.current =
        ⟨fm.fln (result fm c), some c.current, []⟩) ∧
    (∀ v, nodeAt fm (input c v) (input c v).current = ⟨v, some c.current, []⟩) := by
  refine ⟨?_, ?_, ?_, ?_, ?_, ?_, ?_, ?_, ?_⟩
  · intro v h
    rw [add_none_eq h]
    exact nodeAt_insertNode_current fm c _
  · intro v h
    rw [subtract_none_eq h]
    exact nodeAt_insertNode_current fm c _
  · intro v h
    rw [multiply_none_eq h]
    exact nodeAt_insertNode_current fm c _
  · intro v h
    rw [divide_none_eq h]
    exact nodeAt_insertNode_current fm c _
  · intro v h
    rw [exp_none_eq h]
    exact nodeAt_insertNode_current fm c _
  · intro h
    rw [square_none_eq h]
    exact nodeAt_insertNode_current fm c _
  · intro h
    rw [square_root_none_eq h]
    exact nodeAt_insertNode_current fm c _
  · intro h
    rw [natural_log_none_eq h]
    exact nodeAt_insertNode_current fm c _
  · intro v
    exact nodeAt_insertNode_current fm c v

theorem c9_inserted_node_has_no_label_witness :
    (add intModel (new intModel 0) 5).1 = none ∧
    nodeAt intModel (add intModel (new intModel 0) 5).2
        (add intModel (new intModel 0) 5).2.current =
      ⟨(5 : Int), some 0, []⟩ :=
  ⟨by decide,
   (c9_inserted_node_has_no_label intModel (new intModel 0)).1 5 (by decide)⟩

/-! Replay of operation sequences (claim C3). -/

/-- One arithmetic operation of a replayed sequence. -/
inductive AOp (F : Type) where
  | add (v : F)
  | subtract (v : F)
  | multiply (v : F)
  | divide (v : F)
  | exp (v : F)
  | square
  | square_root
  | natural_log

/-- Run one arithmetic operation on the calculator. -/
def runAOp (fm : FloatModel) (c : RustyCalculator fm.F) :
    AOp fm.F → Option CalculationError × RustyCalculator fm.F
  | AOp.add v => add fm c v
  | AOp.subtract v => subtract fm c v
  | AOp.multiply v => multiply fm c v
  | AOp.divide v => divide fm c v
  | AOp.exp v => exp fm c v
  | AOp.square => square fm c
  | AOp.square_root => square_root fm c
  | AOp.natural_log => natural_log fm c

/-- Run a sequence of arithmetic operations, stopping with `none` as soon
as one of them returns an error. -/
def runSeq (fm : FloatModel) (c : RustyCalculator fm.F) :
    List (AOp fm.F) → Option (RustyCalculator fm.F)
  | [] => some c
  | op :: ops =>
    match runAOp fm c op with
    | (none, c2) => runSeq fm c2 ops
    | (some _, _) => none

/-- Modelled from the spec: the plain float accumulator that replays one
operation, applying the operation's pure candidate function directly to
the accumulator. -/
def applyAOp (fm : FloatModel) (a : fm.F) : AOp fm.F → fm.F
  | AOp.add v => fm.fadd a v
  | AOp.subtract v => fm.fsub a v
  | AOp.multiply v => fm.fmul a v
  | AOp.divide v => fm.fdiv a v
  | AOp.exp v => fm.fpowf a v
  | AOp.square => fm.fmul a a
  | AOp.square_root => fm.fsqrt a
  | AOp.natural_log => fm.fln a

/-- Modelled from the spec: replay a whole sequence on a plain accumulator. -/
def replayAccumulator (fm : FloatModel) (a : fm.F) (ops : List (AOp fm.F)) : fm.F :=
  List.foldl (applyAOp fm) a ops

theorem runAOp_none_result {fm : FloatModel} {c : RustyCalculator fm.F} {op : AOp fm.F}
    (h : (runAOp fm c op).1 = none) :
    result fm (runAOp fm c op).2 = applyAOp fm (result fm c) op := by
  cases op with
  | add v =>
    rw [show runAOp fm c (AOp.add v) = add fm c v from rfl] at h ⊢
    rw [add_none_eq h]
    exact result_insertNode fm c _
  | subtract v =>
    rw [show runAOp fm c (AOp.subtract v) = subtract fm c v from rfl] at h ⊢
    rw [subtract_none_eq h]
    exact result_insertNode fm c _
  | multiply v =>
    rw [show runAOp fm c (AOp.multiply v) = multiply fm c v from rfl] at h ⊢
    rw [multiply_none_eq h]
    exact result_insertNode fm c _
  | divide v =>
    rw [show runAOp fm c (AOp.divide v) = divide fm c v from rfl] at h ⊢
    rw [divide_none_eq h]
    exact result_insertNode fm c _
  | exp v =>
    rw [show runAOp fm c (AOp.exp v) = exp fm c v from rfl] at h ⊢
    rw [exp_none_eq h]
    exact result_insertNode fm c _
  | square =>
    rw [show runAOp fm c AOp.square = square fm c from rfl] at h ⊢
    rw [square_none_eq h]
    exact result_insertNode fm c _
  | square_root =>
    rw [show runAOp fm c AOp.square_root = square_root fm c from rfl] at h ⊢
    rw [square_root_none_eq h]
    exact result_insertNode fm c _
  | natural_log =>
    rw [show runAOp fm c AOp.natural_log = natural_log fm c from rfl] at h ⊢
    rw [natural_log_none_eq h]
    exact result_insertNode fm c _

/-- C3: for every sequence of arithmetic operations in which each call
returns success, `result()` after the sequence equals the value obtained
by replaying the same operations on a plain accumulator starting from the
initial current value. -/
theorem c3_replay (fm : FloatModel) :
    ∀ (ops : List (AOp fm.F)) (c c2 : RustyCalculator fm.F),
      runSeq fm c ops = some c2 →
      result fm c2 = replayAccumulator fm (result fm c) ops := by
  intro ops
  induction ops with
  | nil =>
    intro c c2 h
    simp only [runSeq, Option.some.injEq] at h
    subst h
    rfl
  | cons op ops ih =>
    intro c c2 h
    unfold runSeq at h
    cases hr : (runAOp fm c op).1 with
    | some e =>
      rw [show runAOp fm c op = (some e, (runAOp fm c op).2) from
        Prod.ext hr rfl] at h
      exact absurd h (by simp)
    | none =>
      rw [show runAOp fm c op = (none, (runAOp fm c op).2) from
        Prod.ext hr rfl] at h
      have hres := runAOp_none_result hr
      have hrec := ih _ _ h
      rw [hrec, hres]
      rfl

theorem c3_replay_witness :
    runSeq intModel (new intModel 0) [AOp.add 5, AOp.multiply 3] =
      some (multiply intModel (add intModel (new intModel 0) 5).2 3).2 ∧
    result intModel (multiply intModel (add intModel (new intModel 0) 5).2 3).2 =
      replayAccumulator intModel (result intModel (new intModel 0))
        [AOp.add 5, AOp.multiply 3] :=
  ⟨by decide,
   c3_replay intModel [AOp.add 5, AOp.multiply 3] (new intModel 0) _ (by decide)⟩

/-! Lookup case analyses for the three arena mutations. -/

theorem append_getElem?_cases {α : Type _} {l : List α} {x : α} {i : Nat} {m : α}
    (h : (l ++ [x])[i]? = some m) :
    (l[i]? = some m ∧ i < l.length) ∨ (i = l.length ∧ m = x) := by
  by_cases hi : i < l.length
  · left
    rw [List.getElem?_append_left hi] at h
    exact ⟨h, hi⟩
  · right
    by_cases hieq : i = l.length
    · subst hieq
      rw [List.getElem?_concat_length] at h
      exact ⟨rfl, (Option.some.inj h).symm⟩
    · have : (l ++ [x])[i]? = none := by
        apply List.getElem?_eq_none
        simp only [List.length_append, List.length_cons, List.length_nil]
        omega
      rw [this] at h
      exact absurd h (by simp)

theorem updateAt_getElem?_cases {α : Type _} {l : List α} {p : Nat} {f : α → α} {i : Nat} {m : α}
    (h : (updateAt l p f)[i]? = some m) :
    ∃ n, l[i]? = some n ∧ m = (if i = p then f n else n) := by
  by_cases hip : i = p
  · subst hip
    rw [getElem?_updateAt_self] at h
    cases hl : l[i]? with
    | none => rw [hl] at h; exact absurd h (by simp)
    | some n =>
      rw [hl] at h
      refine ⟨n, rfl, ?_⟩
      simp only [Option.map_some'] at h
      rw [if_pos rfl]
      exact (Option.some.inj h).symm
  · rw [getElem?_updateAt_ne _ _ (fun hh => hip hh.symm)] at h
    exact ⟨m, h, by rw [if_neg hip]⟩

theorem insertNode_getElem?_cases {F : Type} {c : RustyCalculator F} {v : F} {i : NodeId}
    {m : Node F} (h : (insertNode c v).nodes[i]? = some m) :
    (∃ n, c.nodes[i]? = some n ∧ m = (if i = c.current then growChild c.nodes.length n else n)) ∨
      (i = c.nodes.length ∧ m = ⟨v, some c.current, []⟩) := by
  rw [insertNode_nodes] at h
  cases append_getElem?_cases h with
  | inl hl =>
    obtain ⟨hlook, hi⟩ := hl
    obtain ⟨n, hn, hm⟩ := updateAt_getElem?_cases hlook
    exact Or.inl ⟨n, hn, hm⟩
  | inr hr =>
    rw [length_updateAt] at hr
    exact Or.inr hr

/-! Reachability through the structural invariants. -/

/-- Along child links, identities strictly increase; hence reachability
implies a monotone bound. -/
theorem reach_le {F : Type} {nodes : List (Node F)} {r t : NodeId}
    (hcg : ChildGt nodes) (h : Reach nodes r t) : r ≤ t := by
  induction h with
  | refl => exact Nat.le_refl _
  | @step j k n h1 h2 h3 ih => exact Nat.le_of_lt (Nat.lt_of_le_of_lt ih (hcg j n k h2 h3))

/-- Inversion core: the parent back-reference of a reachable node points
at a node that is itself reachable from the root (or the node is the root,
whose parent is none). -/
theorem reach_parent_aux {F : Type} {nodes : List (Node F)} {r t pid : NodeId} {m : Node F}
    (hpb : ParentBack nodes)
    (hreach : Reach nodes r t)
    (hm : nodes[t]? = some m)
    (hrootm : ∀ nr : Node F, nodes[r]? = some nr → nr.parent = none)
    (hp : m.parent = some pid) :
    Reach nodes r pid := by
  cases hreach with
  | refl =>
    rw [hrootm m hm] at hp
    exact absurd hp (by simp)
  | @step j k n h1 h2 h3 =>
    obtain ⟨m2, hm2, hmp2⟩ := hpb _ _ _ h2 h3
    rw [hm] at hm2
    cases hm2
    rw [hmp2] at hp
    cases hp
    exact h1

/-- The parent of a reachable non-root node is itself reachable from the
root: the path's last edge and the parent back-reference identify it. -/
theorem reach_parent {fm : FloatModel} {c : RustyCalculator fm.F}
    (hwf : WF c) (hpb : ParentBack c.nodes) (hrnp : RootNoParent c)
    (hreach : Reach c.nodes c.root c.current)
    {pid : NodeId} (hp : (nodeAt fm c c.current).parent = some pid) :
    Reach c.nodes c.root pid := by
  have hc2 : c.current < c.nodes.length := hwf.2.1
  have hm : c.nodes[c.current]? = some c.nodes[c.current] :=
    List.getElem?_eq_getElem hc2
  have hAt : nodeAt fm c c.current = c.nodes[c.current] := by
    rw [nodeAt, hm]
    rfl
  rw [hAt] at hp
  exact reach_parent_aux hpb hreach hm (fun nr h => hrnp nr h) hp

/-- Reachability is preserved when a fresh node is inserted: pre-existing
child lists only grow. -/
theorem reach_insertNode {F : Type} {c : RustyCalculator F} {v : F} {r t : NodeId}
    (h : Reach c.nodes r t) : Reach (insertNode c v).nodes r t := by
  induction h with
  | refl => exact Reach.refl _
  | @step j k n h1 h2 h3 ih =>
    by_cases hj : j = c.current
    · have h2b : (insertNode c v).nodes[j]? = some (growChild c.nodes.length n) := by
        rw [insertNode_getElem?_old c v h2, if_pos hj]
      refine Reach.step ih h2b ?_
      show k ∈ (growChild c.nodes.length n).child_item
      unfold growChild
      simp only [List.mem_append]
      exact Or.inl h3
    · have h2b : (insertNode c v).nodes[j]? = some n := by
        rw [insertNode_getElem?_old c v h2, if_neg hj]
      exact Reach.step ih h2b h3

/-- Reachability of a target at most `pid` survives pruning a child of the
node `pid`: since identities strictly increase along child links, no path
ending at or below `pid` uses an outgoing edge of `pid`. -/
theorem reach_prune {F : Type} {nodes : List (Node F)} {pid cur r t : NodeId}
    (hcg : ChildGt nodes) (h : Reach nodes r t) :
    t ≤ pid → Reach (updateAt nodes pid (pruneChild cur)) r t := by
  induction h with
  | refl => exact fun _ => Reach.refl _
  | @step j k n h1 h2 h3 ih =>
    intro hle
    have hjk : j < k := hcg j n k h2 h3
    have hjp : j < pid := Nat.lt_of_lt_of_le hjk hle
    have hjne : j ≠ pid := Nat.ne_of_lt hjp
    have h2b : (updateAt nodes pid (pruneChild cur))[j]? = some n := by
      rw [getElem?_updateAt_ne _ _ (fun hh => hjne hh.symm)]
      exact h2
    exact Reach.step (ih (Nat.le_of_lt hjp)) h2b h3

/-! Preservation of the full invariant by each state transformer. -/

/-- Growing a child list does not change a node's parent. -/
theorem parent_insertNode_preserved {F : Type} {c : RustyCalculator F} (v : F) {i : NodeId}
    {n : Node F} (h : c.nodes[i]? = some n) :
    ∃ m : Node F, (insertNode c v).nodes[i]? = some m ∧ m.parent = n.parent := by
  refine ⟨_, insertNode_getElem?_old c v h, ?_⟩
  by_cases hic : i = c.current
  · rw [if_pos hic]
    rfl
  · rw [if_neg hic]

theorem wfi_insertNode {F : Type} {c : RustyCalculator F} (v : F) (h : WFI c) :
    WFI (insertNode c v) := by
  obtain ⟨⟨hroot, hcur, hcache, hwfn⟩, hcg, hreach, hpb, hrnp, hcnp⟩ := h
  have hcl : c.nodes[c.current]? = some c.nodes[c.current] := List.getElem?_eq_getElem hcur
  refine ⟨⟨?_, ?_, ?_, ?_⟩, ?_, ?_, ?_, ?_, ?_⟩
  · simp only [insertNode_root, insertNode_length]
    exact Nat.lt_succ_of_lt hroot
  · simp only [insertNode_current, insertNode_length]
    exact Nat.lt_succ_self _
  · intro i hi
    simp only [insertNode_cache] at hi
    simp only [insertNode_length]
    exact Nat.lt_succ_of_lt (hcache i hi)
  · intro i n hn
    simp only [insertNode_length]
    cases insertNode_getElem?_cases hn with
    | inl hl =>
      obtain ⟨m, hm, heq⟩ := hl
      have hb := hwfn i m hm
      subst heq
      by_cases hic : i = c.current
      · rw [if_pos hic]
        constructor
        · intro j hj
          rw [show (growChild c.nodes.length m).child_item =
              m.child_item ++ [c.nodes.length] from rfl] at hj
          cases List.mem_append.mp hj with
          | inl hjo => exact Nat.lt_succ_of_lt (hb.1 j hjo)
          | inr hjn =>
            rw [List.mem_singleton.mp hjn]
            exact Nat.lt_succ_self _
        · intro p hp
          exact Nat.lt_succ_of_lt (hb.2 p hp)
      · rw [if_neg hic]
        exact ⟨fun j hj => Nat.lt_succ_of_lt (hb.1 j hj),
          fun p hp => Nat.lt_succ_of_lt (hb.2 p hp)⟩
    | inr hr =>
      obtain ⟨hi, heq⟩ := hr
      subst heq
      refine ⟨by simp, ?_⟩
      intro p hp
      cases hp
      exact Nat.lt_succ_of_lt hcur
  · intro i n j hn hj
    cases insertNode_getElem?_cases hn with
    | inl hl =>
      obtain ⟨m, hm, heq⟩ := hl
      subst heq
      by_cases hic : i = c.current
      · rw [if_pos hic] at hj
        rw [show (growChild c.nodes.length m).child_item =
            m.child_item ++ [c.nodes.length] from rfl] at hj
        cases List.mem_append.mp hj with
        | inl hjo => exact hcg i m j hm hjo
        | inr hjn =>
          rw [List.mem_singleton.mp hjn]
          rw [hic]
          exact hcur
      · rw [if_neg hic] at hj
        exact hcg i m j hm hj
    | inr hr =>
      obtain ⟨hi, heq⟩ := hr
      subst heq
      exact absurd hj (by simp)
  · simp only [insertNode_root, insertNode_current]
    refine Reach.step (reach_insertNode hreach) (insertNode_getElem?_old c v hcl) ?_
    rw [if_pos rfl]
    rw [show (growChild c.nodes.length c.nodes[c.current]).child_item =
        c.nodes[c.current].child_item ++ [c.nodes.length] from rfl]
    simp
  · intro i n j hn hj
    cases insertNode_getElem?_cases hn with
    | inl hl =>
      obtain ⟨m, hm, heq⟩ := hl
      subst heq
      by_cases hic : i = c.current
      · rw [if_pos hic] at hj
        rw [show (growChild c.nodes.length m).child_item =
            m.child_item ++ [c.nodes.length] from rfl] at hj
        cases List.mem_append.mp hj with
        | inl hjo =>
          obtain ⟨m2, hm2, hp2⟩ := hpb i m j hm hjo
          obtain ⟨m3, hm3, hp3⟩ := parent_insertNode_preserved v hm2
          exact ⟨m3, hm3, by rw [hp3, hp2]⟩
        | inr hjn =>
          rw [List.mem_singleton.mp hjn]
          refine ⟨_, insertNode_getElem?_last c v, ?_⟩
          rw [hic]
      · rw [if_neg hic] at hj
        obtain ⟨m2, hm2, hp2⟩ := hpb i m j hm hj
        obtain ⟨m3, hm3, hp3⟩ := parent_insertNode_preserved v hm2
        exact ⟨m3, hm3, by rw [hp3, hp2]⟩
    | inr hr =>
      obtain ⟨hi, heq⟩ := hr
      subst heq
      exact absurd hj (by simp)
  · intro n hn
    simp only [insertNode_root] at hn
    have hrl : c.nodes[c.root]? = some c.nodes[c.root] := List.getElem?_eq_getElem hroot
    rw [insertNode_getElem?_old c v hrl] at hn
    have hpn := hrnp _ hrl
    cases hn
    by_cases hrc : c.root = c.current
    · rw [if_pos hrc]
      exact hpn
    · rw [if_neg hrc]
      exact hpn
  · intro i hi n hn
    simp only [insertNode_cache] at hi
    have hib : i < c.nodes.length := hcache i hi
    have hil : c.nodes[i]? = some c.nodes[i] := List.getElem?_eq_getElem hib
    rw [insertNode_getElem?_old c v hil] at hn
    have hpn := hcnp i hi _ hil
    cases hn
    by_cases hic : i = c.current
    · rw [if_pos hic]
      exact hpn
    · rw [if_neg hic]
      exact hpn

theorem wfi_append_orphan {F : Type} {c : RustyCalculator F} (v : F) (h : WFI c) :
    WFI { c with nodes := c.nodes ++ [⟨v, some c.current, []⟩] } := by
  obtain ⟨⟨hroot, hcur, hcache, hwfn⟩, hcg, hreach, hpb, hrnp, hcnp⟩ := h
  have hlen : (c.nodes ++ [(⟨v, some c.current, []⟩ : Node F)]).length = c.nodes.length + 1 := by
    simp
  refine ⟨⟨?_, ?_, ?_, ?_⟩, ?_, ?_, ?_, ?_, ?_⟩
  · rw [hlen]
    exact Nat.lt_succ_of_lt hroot
  · rw [hlen]
    exact Nat.lt_succ_of_lt hcur
  · intro i hi
    rw [hlen]
    exact Nat.lt_succ_of_lt (hcache i hi)
  · intro i n hn
    rw [hlen]
    cases append_getElem?_cases hn with
    | inl hl =>
      have hb := hwfn i n hl.1
      exact ⟨fun j hj => Nat.lt_succ_of_lt (hb.1 j hj),
        fun p hp => Nat.lt_succ_of_lt (hb.2 p hp)⟩
    | inr hr =>
      obtain ⟨hi, heq⟩ := hr
      subst heq
      refine ⟨by simp, ?_⟩
      intro p hp
      cases hp
      exact Nat.lt_succ_of_lt hcur
  · intro i n j hn hj
    cases append_getElem?_cases hn with
    | inl hl => exact hcg i n j hl.1 hj
    | inr hr =>
      obtain ⟨hi, heq⟩ := hr
      subst heq
      exact absurd hj (by simp)
  · exact hreach.append
  · intro i n j hn hj
    cases append_getElem?_cases hn with
    | inl hl =>
      obtain ⟨m2, hm2, hp2⟩ := hpb i n j hl.1 hj
      have hj2 : j < c.nodes.length := (List.getElem?_eq_some_iff.mp hm2).1
      refine ⟨m2, ?_, hp2⟩
      rw [List.getElem?_append_left hj2]
      exact hm2
    | inr hr =>
      obtain ⟨hi, heq⟩ := hr
      subst heq
      exact absurd hj (by simp)
  · intro n hn
    rw [List.getElem?_append_left hroot] at hn
    exact hrnp n hn
  · intro i hi n hn
    rw [List.getElem?_append_left (hcache i hi)] at hn
    exact hcnp i hi n hn

/-- Pruning a child list does not change any node's parent. -/
theorem parent_prune_preserved {F : Type} {nodes : List (Node F)} {pid cur j : NodeId}
    {m : Node F} (hm : nodes[j]? = some m) :
    ∃ m2 : Node F, (updateAt nodes pid (pruneChild cur))[j]? = some m2 ∧ m2.parent = m.parent := by
  by_cases hjp : j = pid
  · subst hjp
    refine ⟨pruneChild cur m, ?_, rfl⟩
    rw [getElem?_updateAt_self, hm]
    rfl
  · refine ⟨m, ?_, rfl⟩
    rw [getElem?_updateAt_ne _ _ (fun hh => hjp hh.symm)]
    exact hm

theorem wfi_delete {fm : FloatModel} {c : RustyCalculator fm.F} (h : WFI c) :
    WFI (delete fm c).2 := by
  obtain ⟨⟨hroot, hcur, hcache, hwfn⟩, hcg, hreach, hpb, hrnp, hcnp⟩ := h
  cases hp : (nodeAt fm c c.current).parent with
  | none =>
    rw [delete_none hp]
    exact ⟨⟨hroot, hcur, hcache, hwfn⟩, hcg, hreach, hpb, hrnp, hcnp⟩
  | some pid =>
    cases hl : c.nodes[pid]? with
    | none =>
      rw [delete_dangling hp hl]
      exact ⟨⟨hroot, hcur, hcache, hwfn⟩, hcg, hreach, hpb, hrnp, hcnp⟩
    | some np =>
      rw [delete_ok hp hl]
      have hpidlt : pid < c.nodes.length := (List.getElem?_eq_some_iff.mp hl).1
      have hreachp : Reach c.nodes c.root pid :=
        reach_parent ⟨hroot, hcur, hcache, hwfn⟩ hpb hrnp hreach hp
      refine ⟨⟨?_, ?_, ?_, ?_⟩, ?_, ?_, ?_, ?_, ?_⟩
      · rw [length_updateAt]
        exact hroot
      · rw [length_updateAt]
        exact hpidlt
      · intro i hi
        rw [length_updateAt]
        exact hcache i hi
      · intro i n hn
        rw [length_updateAt]
        obtain ⟨m, hm, heq⟩ := updateAt_getElem?_cases hn
        have hb := hwfn i m hm
        subst heq
        by_cases hip : i = pid
        · rw [if_pos hip]
          refine ⟨?_, ?_⟩
          · intro j hj
            exact hb.1 j (List.mem_of_mem_filter hj)
          · intro p hpp
            exact hb.2 p hpp
        · rw [if_neg hip]
          exact hb
      · intro i n j hn hj
        obtain ⟨m, hm, heq⟩ := updateAt_getElem?_cases hn
        subst heq
        by_cases hip : i = pid
        · rw [if_pos hip] at hj
          exact hcg i m j hm (List.mem_of_mem_filter hj)
        · rw [if_neg hip] at hj
          exact hcg i m j hm hj
      · exact reach_prune hcg hreachp (Nat.le_refl _)
      · intro i n j hn hj
        obtain ⟨m, hm, heq⟩ := updateAt_getElem?_cases hn
        subst heq
        have hjm : j ∈ m.child_item := by
          by_cases hip : i = pid
          · rw [if_pos hip] at hj
            exact List.mem_of_mem_filter hj
          · rw [if_neg hip] at hj
            exact hj
        obtain ⟨m2, hm2, hp2⟩ := hpb i m j hm hjm
        obtain ⟨m3, hm3, hp3⟩ := parent_prune_preserved hm2
        exact ⟨m3, hm3, by rw [hp3, hp2]⟩
      · intro n hn
        obtain ⟨m, hm, heq⟩ := updateAt_getElem?_cases hn
        subst heq
        have hpn := hrnp m hm
        by_cases hrp : c.root = pid
        · rw [if_pos hrp]
          exact hpn
        · rw [if_neg hrp]
          exact hpn
      · intro i hi n hn
        obtain ⟨m, hm, heq⟩ := updateAt_getElem?_cases hn
        subst heq
        have hpn := hcnp i hi m hm
        by_cases hip : i = pid
        · rw [if_pos hip]
          exact hpn
        · rw [if_neg hip]
          exact hpn

theorem wfi_go_backwards {fm : FloatModel} {c : RustyCalculator fm.F} (h : WFI c) :
    WFI (go_backwards fm c).2 := by
  obtain ⟨⟨hroot, hcur, hcache, hwfn⟩, hcg, hreach, hpb, hrnp, hcnp⟩ := h
  cases hp : (nodeAt fm c c.current).parent with
  | none =>
    rw [go_backwards_none hp]
    exact ⟨⟨hroot, hcur, hcache, hwfn⟩, hcg, hreach, hpb, hrnp, hcnp⟩
  | some pid =>
    cases hl : c.nodes[pid]? with
    | none =>
      rw [go_backwards_dangling hp hl]
      exact ⟨⟨hroot, hcur, hcache, hwfn⟩, hcg, hreach, hpb, hrnp, hcnp⟩
    | some np =>
      rw [go_backwards_ok hp hl]
      have hpidlt : pid < c.nodes.length := (List.getElem?_eq_some_iff.mp hl).1
      exact ⟨⟨hroot, hpidlt, hcache, hwfn⟩, hcg,
        reach_parent ⟨hroot, hcur, hcache, hwfn⟩ hpb hrnp hreach hp, hpb, hrnp, hcnp⟩

theorem wfi_go_forwards {fm : FloatModel} {c : RustyCalculator fm.F} (choice : Option Nat)
    (h : WFI c) : WFI (go_forwards fm c choice).2 := by
  obtain ⟨⟨hroot, hcur, hcache, hwfn⟩, hcg, hreach, hpb, hrnp, hcnp⟩ := h
  by_cases hemp : (nodeAt fm c c.current).child_item = []
  · rw [go_forwards_empty hemp choice]
    exact ⟨⟨hroot, hcur, hcache, hwfn⟩, hcg, hreach, hpb, hrnp, hcnp⟩
  · cases choice with
    | none =>
      rw [go_forwards_parse_fail hemp]
      exact ⟨⟨hroot, hcur, hcache, hwfn⟩, hcg, hreach, hpb, hrnp, hcnp⟩
    | some ch =>
      by_cases hch : ch < (nodeAt fm c c.current).child_item.length
      · rw [go_forwards_ok hch]
        have hcl : c.nodes[c.current]? = some c.nodes[c.current] :=
          List.getElem?_eq_getElem hcur
        have hAt : nodeAt fm c c.current = c.nodes[c.current] := by
          rw [nodeAt, hcl]
          rfl
        rw [hAt] at hch ⊢
        have hget : c.nodes[c.current].child_item.getD ch 0 =
            c.nodes[c.current].child_item[ch] := by
          rw [List.getD_eq_getElem?_getD, List.getElem?_eq_getElem hch]
          rfl
        rw [hget]
        have hmem : c.nodes[c.current].child_item[ch] ∈ c.nodes[c.current].child_item :=
          List.getElem_mem hch
        refine ⟨⟨hroot, (hwfn _ _ hcl).1 _ hmem, hcache, hwfn⟩, hcg,
          Reach.step hreach hcl hmem, hpb, hrnp, hcnp⟩
      · rw [go_forwards_oob hemp (by omega)]
        exact ⟨⟨hroot, hcur, hcache, hwfn⟩, hcg, hreach, hpb, hrnp, hcnp⟩

theorem wfi_reset {fm : FloatModel} {c : RustyCalculator fm.F} (h : WFI c) :
    WFI (reset fm c) := by
  obtain ⟨⟨hroot, hcur, hcache, hwfn⟩, hcg, hreach, hpb, hrnp, hcnp⟩ := h
  have hres : reset fm c =
      { nodes := c.nodes ++ [⟨fm.fzero, none, []⟩], root := c.nodes.length,
        current := c.nodes.length, cache := c.root :: c.cache } := rfl
  rw [hres]
  have hlen : (c.nodes ++ [(⟨fm.fzero, none, []⟩ : Node fm.F)]).length = c.nodes.length + 1 := by
    simp
  refine ⟨⟨?_, ?_, ?_, ?_⟩, ?_, Reach.refl _, ?_, ?_, ?_⟩
  · rw [hlen]
    exact Nat.lt_succ_self _
  · rw [hlen]
    exact Nat.lt_succ_self _
  · intro i hi
    rw [hlen]
    cases List.mem_cons.mp hi with
    | inl he =>
      rw [he]
      exact Nat.lt_succ_of_lt hroot
    | inr hm => exact Nat.lt_succ_of_lt (hcache i hm)
  · intro i n hn
    rw [hlen]
    cases append_getElem?_cases hn with
    | inl hl =>
      have hb := hwfn i n hl.1
      exact ⟨fun j hj => Nat.lt_succ_of_lt (hb.1 j hj),
        fun p hp => Nat.lt_succ_of_lt (hb.2 p hp)⟩
    | inr hr =>
      obtain ⟨hi, heq⟩ := hr
      subst heq
      exact ⟨by simp, by simp⟩
  · intro i n j hn hj
    cases append_getElem?_cases hn with
    | inl hl => exact hcg i n j hl.1 hj
    | inr hr =>
      obtain ⟨hi, heq⟩ := hr
      subst heq
      exact absurd hj (by simp)
  · intro i n j hn hj
    cases append_getElem?_cases hn with
    | inl hl =>
      obtain ⟨m2, hm2, hp2⟩ := hpb i n j hl.1 hj
      have hj2 : j < c.nodes.length := (List.getElem?_eq_some_iff.mp hm2).1
      refine ⟨m2, ?_, hp2⟩
      rw [List.getElem?_append_left hj2]
      exact hm2
    | inr hr =>
      obtain ⟨hi, heq⟩ := hr
      subst heq
      exact absurd hj (by simp)
  · intro n hn
    rw [List.getElem?_concat_length] at hn
    cases hn
    rfl
  · intro i hi n hn
    cases List.mem_cons.mp hi with
    | inl he =>
      subst he
      rw [List.getElem?_append_left hroot] at hn
      exact hrnp n hn
    | inr hm =>
      rw [List.getElem?_append_left (hcache i hm)] at hn
      exact hcnp i hm n hn

theorem wfi_recover_cache {fm : FloatModel} {c : RustyCalculator fm.F} (h : WFI c) :
    WFI (recover_cache fm c).2 := by
  obtain ⟨⟨hroot, hcur, hcache, hwfn⟩, hcg, hreach, hpb, hrnp, hcnp⟩ := h
  cases hc : c.cache with
  | nil =>
    rw [recover_cache_nil hc]
    exact ⟨⟨hroot, hcur, hcache, hwfn⟩, hcg, hreach, hpb, hrnp, hcnp⟩
  | cons cached rest =>
    rw [recover_cache_cons hc]
    have hmem : cached ∈ c.cache := by
      rw [hc]
      exact List.mem_cons_self _ _
    have hcb : cached < c.nodes.length := hcache cached hmem
    have hcl : c.nodes[cached]? = some c.nodes[cached] := List.getElem?_eq_getElem hcb
    have hpn : c.nodes[cached].parent = none := hcnp cached hmem _ hcl
    have hta : topAncestor fm c.nodes c.nodes.length cached = cached :=
      topAncestor_no_parent hcl hpn _
    rw [hta]
    refine ⟨⟨hcb, hcb, ?_, hwfn⟩, hcg, Reach.refl _, hpb, ?_, ?_⟩
    · intro i hi
      refine hcache i ?_
      rw [hc]
      exact List.mem_cons_of_mem _ hi
    · intro n hn
      rw [hcl] at hn
      cases hn
      exact hpn
    · intro i hi n hn
      refine hcnp i ?_ n hn
      rw [hc]
      exact List.mem_cons_of_mem _ hi

theorem wfi_insertValidated {fm : FloatModel} {c : RustyCalculator fm.F} {prev cand : fm.F}
    (h : WFI c) : WFI (insertValidated fm c prev cand).2 := by
  cases hv : checked_value fm prev cand with
  | ok w =>
    rw [insertValidated_ok hv]
    exact wfi_insertNode cand h
  | error e =>
    rw [insertValidated_err h.1.2.1 h.1.2.2.2 hv]
    exact wfi_append_orphan cand h

theorem wfi_add {fm : FloatModel} {c : RustyCalculator fm.F} (v : fm.F) (h : WFI c) :
    WFI (add fm c v).2 :=
  wfi_insertValidated h

theorem wfi_subtract {fm : FloatModel} {c : RustyCalculator fm.F} (v : fm.F) (h : WFI c) :
    WFI (subtract fm c v).2 :=
  wfi_insertValidated h

theorem wfi_multiply {fm : FloatModel} {c : RustyCalculator fm.F} (v : fm.F) (h : WFI c) :
    WFI (multiply fm c v).2 :=
  wfi_insertValidated h

theorem wfi_exp {fm : FloatModel} {c : RustyCalculator fm.F} (v : fm.F) (h : WFI c) :
    WFI (exp fm c v).2 :=
  wfi_insertValidated h

theorem wfi_square {fm : FloatModel} {c : RustyCalculator fm.F} (h : WFI c) :
    WFI (square fm c).2 :=
  wfi_insertValidated h

theorem wfi_divide {fm : FloatModel} {c : RustyCalculator fm.F} (v : fm.F) (h : WFI c) :
    WFI (divide fm c v).2 := by
  by_cases hd : fm.fIsZeroEq v = true
  · have hz : divide fm c v = (some CalculationError.DivisionByZero, c) := by
      unfold divide
      rw [if_pos hd]
    rw [hz]
    exact h
  · have hdiv : divide fm c v =
        insertValidated fm c ((nodeAt fm c c.current).value)
          (fm.fdiv ((nodeAt fm c c.current).value) v) := by
      unfold divide
      rw [if_neg hd]
    rw [hdiv]
    exact wfi_insertValidated h

theorem wfi_square_root {fm : FloatModel} {c : RustyCalculator fm.F} (h : WFI c) :
    WFI (square_root fm c).2 := by
  by_cases hlt : fm.fLtZero ((nodeAt fm c c.current).value) = true
  · have hz : square_root fm c = (some CalculationError.OutofBounds, c) := by
      unfold square_root
      rw [if_pos hlt]
    rw [hz]
    exact h
  · have hsr : square_root fm c =
        insertValidated fm c ((nodeAt fm c c.current).value)
          (fm.fsqrt ((nodeAt fm c c.current).value)) := by
      unfold square_root
      rw [if_neg hlt]
    rw [hsr]
    exact wfi_insertValidated h

theorem wfi_natural_log {fm : FloatModel} {c : RustyCalculator fm.F} (h : WFI c) :
    WFI (natural_log fm c).2 := by
  by_cases hle : fm.fLeZero ((nodeAt fm c c.current).value) = true
  · have hz : natural_log fm c = (some CalculationError.OutofBounds, c) := by
      unfold natural_log
      rw [if_pos hle]
    rw [hz]
    exact h
  · have hnl : natural_log fm c =
        insertValidated fm c ((nodeAt fm c c.current).value)
          (fm.fln ((nodeAt fm c c.current).value)) := by
      unfold natural_log
      rw [if_neg hle]
    rw [hnl]
    exact wfi_insertValidated h

theorem wfi_input {F : Type} {c : RustyCalculator F} (v : F) (h : WFI c) :
    WFI (input c v) :=
  wfi_insertNode v h

/-- A freshly constructed calculator satisfies the full invariant. -/
theorem WFI_new (fm : FloatModel) (v : fm.F) : WFI (new fm v) := by
  refine ⟨WF_new fm v, ?_, Reach.refl _, ?_, ?_, ?_⟩
  · intro i n j hn hj
    cases i with
    | zero =>
      simp only [new, List.getElem?_cons_zero, Option.some.injEq] at hn
      subst hn
      exact absurd hj (by simp)
    | succ m => simp [new] at hn
  · intro i n j hn hj
    cases i with
    | zero =>
      simp only [new, List.getElem?_cons_zero, Option.some.injEq] at hn
      subst hn
      exact absurd hj (by simp)
    | succ m => simp [new] at hn
  · intro n hn
    simp only [new, List.getElem?_cons_zero, Option.some.injEq] at hn
    subst hn
    rfl
  · intro i hi
    simp [new] at hi

/-- C10: every public operation — the eight arithmetic operations, `input`,
`delete`, `go_backwards`, `go_forwards`, `reset` and `recover_cache` —
preserves the invariant that the current node lies in the subtree reachable
from the root via child links and that every child node's parent
back-reference upgrades to exactly the node whose child list contains it.
The hypothesis `WFI` packages this invariant together with the auxiliary
well-formedness facts that hold of every state the program can construct
(all stored identities in range, children allocated after their parents,
root and cached snapshots parentless). -/
theorem c10_ops_preserve_invariant (fm : FloatModel) (c : RustyCalculator fm.F) (h : WFI c) :
    (∀ v, ClaimInv (add fm c v).2) ∧
    (∀ v, ClaimInv (subtract fm c v).2) ∧
    (∀ v, ClaimInv (multiply fm c v).2) ∧
    (∀ v, ClaimInv (divide fm c v).2) ∧
    (∀ v, ClaimInv (exp fm c v).2) ∧
    ClaimInv (square fm c).2 ∧
    ClaimInv (square_root fm c).2 ∧
    ClaimInv (natural_log fm c).2 ∧
    (∀ v, ClaimInv (input c v)) ∧
    ClaimInv (delete fm c).2 ∧
    ClaimInv (go_backwards fm c).2 ∧
    (∀ choice, ClaimInv (go_forwards fm c choice).2) ∧
    ClaimInv (reset fm c) ∧
    ClaimInv (recover_cache fm c).2 :=
  ⟨fun v => (wfi_add v h).claimInv, fun v => (wfi_subtract v h).claimInv,
   fun v => (wfi_multiply v h).claimInv, fun v => (wfi_divide v h).claimInv,
   fun v => (wfi_exp v h).claimInv, (wfi_square h).claimInv, (wfi_square_root h).claimInv,
   (wfi_natural_log h).claimInv, fun v => (wfi_input v h).claimInv, (wfi_delete h).claimInv,
   (wfi_go_backwards h).claimInv, fun choice => (wfi_go_forwards choice h).claimInv,
   (wfi_reset h).claimInv, (wfi_recover_cache h).claimInv⟩

theorem c10_ops_preserve_invariant_witness :
    WFI (new intModel 0) ∧ ClaimInv (reset intModel (new intModel 0)) :=
  ⟨WFI_new intModel 0,
   (c10_ops_preserve_invariant intModel (new intModel 0)
      (WFI_new intModel 0)).2.2.2.2.2.2.2.2.2.2.2.2.1⟩

/-- C8: with no intervening insert, `go_backwards` followed by
`go_forwards` with the child selection that names the original node
restores the original current node and its value, and `go_forwards` with a
valid selection followed by `go_backwards` restores the original current
node and its value.  The hypotheses name the parent (resp. selected child)
node and the selection index, and — for the forwards-then-backwards
direction — require the selected child's parent back-reference to point at
the current node, which is the invariant C10 maintains. -/
theorem c8_navigation_roundtrip (fm : FloatModel) (c : RustyCalculator fm.F) :
    (∀ p (np : Node fm.F) i, (nodeAt fm c c.current).parent = some p →
      c.nodes[p]? = some np → np.child_item[i]? = some c.current →
      go_backwards fm c = (none, { c with current := p }) ∧
      go_forwards fm { c with current := p } (some i) = (none, c) ∧
      result fm (go_forwards fm { c with current := p } (some i)).2 = result fm c) ∧
    (∀ i j (nc ncur : Node fm.F), c.nodes[c.current]? = some ncur →
      ncur.child_item[i]? = some j →
      c.nodes[j]? = some nc → nc.parent = some c.current →
      go_forwards fm c (some i) = (none, { c with current := j }) ∧
      go_backwards fm { c with current := j } = (none, c) ∧
      result fm (go_backwards fm { c with current := j }).2 = result fm c) := by
  constructor
  · intro p np i hp hnp hi
    have h1 : go_backwards fm c = (none, { c with current := p }) := go_backwards_ok hp hnp
    have hi2 : i < np.child_item.length := (List.getElem?_eq_some_iff.mp hi).1
    have hAt : nodeAt fm ({ c with current := p } : RustyCalculator fm.F)
        ({ c with current := p } : RustyCalculator fm.F).current = np := by
      show (c.nodes[p]?).getD (defaultNode fm) = np
      rw [hnp]
      rfl
    have hch : i < (nodeAt fm ({ c with current := p } : RustyCalculator fm.F)
        ({ c with current := p } : RustyCalculator fm.F).current).child_item.length := by
      rw [hAt]
      exact hi2
    have hT : (nodeAt fm ({ c with current := p } : RustyCalculator fm.F)
        ({ c with current := p } : RustyCalculator fm.F).current).child_item.getD i 0 =
        c.current := by
      rw [hAt, List.getD_eq_getElem?_getD, hi]
      rfl
    have h2 : go_forwards fm { c with current := p } (some i) = (none, c) := by
      rw [go_forwards_ok hch, hT]
    refine ⟨h1, h2, ?_⟩
    rw [h2]
  · intro i j nc ncur hcur hij hj hpar
    have hAt : nodeAt fm c c.current = ncur := by
      rw [nodeAt, hcur]
      rfl
    have hi2 : i < ncur.child_item.length := (List.getElem?_eq_some_iff.mp hij).1
    have hch : i < (nodeAt fm c c.current).child_item.length := by
      rw [hAt]
      exact hi2
    have hT : (nodeAt fm c c.current).child_item.getD i 0 = j := by
      rw [hAt, List.getD_eq_getElem?_getD, hij]
      rfl
    have h1 : go_forwards fm c (some i) = (none, { c with current := j }) := by
      rw [go_forwards_ok hch, hT]
    have hAt2 : nodeAt fm ({ c with current := j } : RustyCalculator fm.F)
        ({ c with current := j } : RustyCalculator fm.F).current = nc := by
      show (c.nodes[j]?).getD (defaultNode fm) = nc
      rw [hj]
      rfl
    have hp2 : (nodeAt fm ({ c with current := j } : RustyCalculator fm.F)
        ({ c with current := j } : RustyCalculator fm.F).current).parent = some c.current := by
      rw [hAt2]
      exact hpar
    have hl2 : ({ c with current := j } : RustyCalculator fm.F).nodes[c.current]? = some ncur :=
      hcur
    have h2 : go_backwards fm { c with current := j } = (none, c) := by
      rw [go_backwards_ok hp2 hl2]
    refine ⟨h1, h2, ?_⟩
    rw [h2]

theorem c8_navigation_roundtrip_witness :
    (go_backwards intModel (input (new intModel 0) 5) =
        (none, { input (new intModel 0) 5 with current := 0 }) ∧
      go_forwards intModel { input (new intModel 0) 5 with current := 0 } (some 0) =
        (none, input (new intModel 0) 5)) ∧
    (go_forwards intModel { input (new intModel 0) 5 with current := 0 } (some 0) =
        (none, { { input (new intModel 0) 5 with current := 0 } with current := 1 }) ∧
      go_backwards intModel
          { { input (new intModel 0) 5 with current := 0 } with current := 1 } =
        (none, { input (new intModel 0) 5 with current := 0 })) := by
  have hb := (c8_navigation_roundtrip intModel (input (new intModel 0) 5)).1 0
    ⟨(0 : Int), none, [1]⟩ 0 (by decide) (by decide) (by decide)
  have hf := (c8_navigation_roundtrip intModel
    { input (new intModel 0) 5 with current := 0 }).2 0 1
    ⟨(5 : Int), some 0, []⟩ ⟨(0 : Int), none, [1]⟩ (by decide) (by decide) (by decide)
    (by decide)
  exact ⟨⟨hb.1, hb.2.1⟩, ⟨hf.1, hf.2.1⟩⟩

end RustyCalc
